import Mathlib

/-!
# High-Performance-Trade-Engine: order entry and order book

A shallow embedding of `order_entry.hpp` and `order_book.hpp`.

* A `std::string` is a `List Char`; the character codes 0..255 are the byte
  values of the C++ string, and the C-locale classification functions
  (`std::tolower`, `isspace`, `isdigit`) only ever single out ASCII codes.
* A C++ exception is the `Except.error` branch of `Except Error`.
* `uint64_t` values are `Nat`, `int64_t` / `long long` values are `Int`; range
  checks and casts are written out where the source has them.
-/

set_option autoImplicit false

deriving instance DecidableEq for Except

namespace order_entry

/-! ## Enums -/

/-- The enum `OrderSide` of `order_entry.hpp`. -/
inductive OrderSide where
  | BUY
  | SELL
  deriving DecidableEq, Repr

/-- The enum `OrderType` of `order_entry.hpp`. -/
inductive OrderType where
  | LIMIT
  | MARKET
  deriving DecidableEq, Repr

/-- The two standard exception classes the entry layer can throw. -/
inductive Error where
  | invalid_argument
  | out_of_range
  deriving DecidableEq, Repr

/-! ## Helpers -/

/-- C-locale `std::tolower` on one character: only `A`..`Z` change. -/
def tolower (c : Char) : Char :=
  if 65 ≤ c.toNat ∧ c.toNat ≤ 90 then Char.ofNat (c.toNat + 32) else c

/-- C-locale `std::toupper` on one character: only `a`..`z` change. -/
def toupper (c : Char) : Char :=
  if 97 ≤ c.toNat ∧ c.toNat ≤ 122 then Char.ofNat (c.toNat - 32) else c

/-- C-locale `isspace`: space, `\t`, `\n`, `\v`, `\f`, `\r`. -/
def isspace (c : Char) : Bool :=
  c.toNat = 32 || (9 ≤ c.toNat && c.toNat ≤ 13)

/-- C-locale `isdigit`: `0`..`9`. -/
def isdigit (c : Char) : Bool :=
  48 ≤ c.toNat && c.toNat ≤ 57

/-- The function `toLower`: every character mapped through `std::tolower`. -/
def toLower (s : List Char) : List Char :=
  s.map tolower

/-- The function `toUpper`: every character mapped through `std::toupper`. -/
def toUpper (s : List Char) : List Char :=
  s.map toupper

/-- The function `parseOrderSide`. -/
def parseOrderSide (orderSide : List Char) : Except Error OrderSide :=
  let lowerOrderSide := toLower orderSide
  if lowerOrderSide = "buy".toList then .ok OrderSide.BUY
  else if lowerOrderSide = "sell".toList then .ok OrderSide.SELL
  else .error Error.invalid_argument

/-- The function `parseOrderType`. -/
def parseOrderType (orderType : List Char) : Except Error OrderType :=
  let lowerOrderType := toLower orderType
  if lowerOrderType = "limit".toList then .ok OrderType.LIMIT
  else if lowerOrderType = "market".toList then .ok OrderType.MARKET
  else .error Error.invalid_argument

/-- Value of a run of decimal digits, most significant first. -/
def digitsValue (ds : List Char) : Nat :=
  ds.foldl (fun acc c => 10 * acc + (c.toNat - 48)) 0

/-- Sign handling of `strtoll`: an optional leading `+` or `-` is consumed. -/
def splitSign : List Char → Bool × List Char
  | '-' :: rest => (true, rest)
  | '+' :: rest => (false, rest)
  | s => (false, s)

/-- The library call `std::stoll(str)` (base 10, no position output): leading
whitespace is skipped, an optional sign is read, then the longest run of
decimal digits; whatever follows the digits is ignored. No digit at all
throws `invalid_argument`, a value outside `long long` throws `out_of_range`. -/
def stoll (str : List Char) : Except Error Int :=
  let body := splitSign (str.dropWhile isspace)
  let digits := body.2.takeWhile isdigit
  if digits = [] then .error Error.invalid_argument
  else
    let magnitude : Int := (digitsValue digits : Nat)
    let value : Int := if body.1 then -magnitude else magnitude
    if value < -(2 : Int) ^ 63 ∨ (2 : Int) ^ 63 - 1 < value then .error Error.out_of_range
    else .ok value

/-- The function `parseQuantity`: `stoll`, a positivity check, and the cast to
`uint64_t`; the `catch (...) { throw; }` wrapper rethrows unchanged. -/
def parseQuantity (quantity : List Char) : Except Error Nat :=
  match stoll quantity with
  | .error e => .error e
  | .ok qty =>
    if qty ≤ 0 then .error Error.invalid_argument
    else .ok (qty % (2 : Int) ^ 64).toNat

/-- The function `parsePriceTicks`: `stoll` and the (value-preserving) cast from
`long long` to `int64_t`. -/
def parsePriceTicks (priceTicks : List Char) : Except Error Int :=
  match stoll priceTicks with
  | .error e => .error e
  | .ok priceT => .ok priceT

/-! ## Requests -/

/-- The struct `NewOrder`; `_timePt` is the clock reading taken at construction. -/
structure NewOrder where
  _orderId : Nat
  _symbol : List Char
  _orderSide : OrderSide
  _orderType : OrderType
  _quantity : Nat
  _priceTicks : Option Int
  _timePt : Nat
  deriving DecidableEq, Repr

/-- The five-argument constructor of `NewOrder` ("Constructor for Market Order").
The member initialisers run in declaration order, so the first parser that
throws decides the exception; `now` is the value `steady_clock::now()` yields. -/
def NewOrder.NewOrder5 (now : Nat) (orderId : Nat) (symbol orderSide orderType quantity : List Char) :
    Except Error NewOrder :=
  match parseOrderSide orderSide with
  | .error e => .error e
  | .ok side =>
    match parseOrderType orderType with
    | .error e => .error e
    | .ok type =>
      match parseQuantity quantity with
      | .error e => .error e
      | .ok qty =>
        .ok { _orderId := orderId, _symbol := symbol, _orderSide := side, _orderType := type,
              _quantity := qty, _priceTicks := none, _timePt := now }

/-- The six-argument constructor of `NewOrder` ("Constructor for LIMIT order"):
delegates to the five-argument one, then assigns the parsed price. -/
def NewOrder.NewOrder6 (now : Nat) (orderId : Nat)
    (symbol orderSide orderType quantity priceTicks : List Char) : Except Error NewOrder :=
  match NewOrder.NewOrder5 now orderId symbol orderSide orderType quantity with
  | .error e => .error e
  | .ok order =>
    match parsePriceTicks priceTicks with
    | .error e => .error e
    | .ok price => .ok { order with _priceTicks := some price }

/-- The struct `CancelOrder`. -/
structure CancelOrder where
  _orderId : Nat
  _timePt : Nat
  deriving DecidableEq, Repr

/-- The constructor of `CancelOrder`. -/
def CancelOrder.ctor (now : Nat) (orderId : Nat) : CancelOrder :=
  { _orderId := orderId, _timePt := now }

/-- The struct `OrderRequest`. -/
structure OrderRequest where
  _newOrder : Option NewOrder
  _cancelOrder : Option CancelOrder
  deriving DecidableEq, Repr

/-- The factory `OrderRequest::makeNewOrder`. -/
def OrderRequest.makeNewOrder (order : NewOrder) : OrderRequest :=
  { _newOrder := some order, _cancelOrder := none }

/-- The factory `OrderRequest::makeCancelOrder`. -/
def OrderRequest.makeCancelOrder (order : CancelOrder) : OrderRequest :=
  { _newOrder := none, _cancelOrder := some order }

/-! ## Specification-side vocabulary for the entry layer -/

/-- A string that is, in its entirety, an optional sign followed by one or more
decimal digits. -/
def IsSignedDecimal (s : List Char) : Prop :=
  ∃ sign digits : List Char,
    s = sign ++ digits ∧ (sign = [] ∨ sign = ['+'] ∨ sign = ['-']) ∧
      digits ≠ [] ∧ ∀ c ∈ digits, isdigit c = true

/-- A string that starts, after optional leading whitespace, with an optional
sign followed by at least one decimal digit. -/
def HasNumericPrefix (s : List Char) : Prop :=
  ∃ spaces sign digits rest : List Char,
    s = spaces ++ sign ++ digits ++ rest ∧ (∀ c ∈ spaces, isspace c = true) ∧
      (sign = [] ∨ sign = ['+'] ∨ sign = ['-']) ∧
      digits ≠ [] ∧ ∀ c ∈ digits, isdigit c = true

/-- Canonical decimal rendering of an integer: a leading `-` for a negative
value, then the decimal digits of the magnitude without padding. -/
def renderInt (n : Int) : List Char :=
  if n < 0 then '-' :: Nat.toDigits 10 n.natAbs else Nat.toDigits 10 n.natAbs

end order_entry


namespace order_book

/-! ## Declarations of `order_book.hpp` -/

/-- The struct `BestQuote`. -/
structure BestQuote where
  _bid : Option Int
  _ask : Option Int
  deriving DecidableEq, Repr

/-- The enum `Side`. -/
inductive Side where
  | BID
  | ASK
  deriving DecidableEq, Repr

/-- The enum `CancelResult`. -/
inductive CancelResult where
  | OK
  | NOT_FOUND
  | ALREADY_CLOSED
  deriving DecidableEq, Repr

/-- The struct `RestingOrder`; `_timestamp` holds the arrival sequence number. -/
structure RestingOrder where
  _orderId : Nat
  _remaining : Nat
  _timestamp : Nat
  deriving DecidableEq, Repr

/-- The alias `Queue = std::list<RestingOrder>`, front of the queue first. -/
abbrev Queue := List RestingOrder

/-- The struct `Locator`. Its `position` member is an iterator to the list node
of the order; the node is identified here by the order id the index entry is
keyed with, so the member carries no data of its own. -/
structure Locator where
  side : Side
  price : Int
  deriving DecidableEq, Repr

/-- One side of the ladder, `std::map<PriceT, Queue, Compare>`, as the sequence
of its entries in iteration order. -/
abbrev Ladder := List (Int × Queue)

/-- The locator index, `std::unordered_map<OrderId, Locator>`, as its entries. -/
abbrev LocatorIndex := List (Nat × Locator)

/-- The data members of `SimplePriceTimeBook`, together with the arrival
counter the specification assigns sequence numbers from. -/
structure SimplePriceTimeBook where
  _bids : Ladder
  _asks : Ladder
  _liveOrders : LocatorIndex
  _nextSequence : Nat
  deriving DecidableEq, Repr

/-! ## Container operations -/

/-- Key order of a ladder side: `std::greater` for bids, `std::less` for asks;
`better side a b` says that key `a` is iterated before key `b`. -/
def better (side : Side) (a b : Int) : Bool :=
  match side with
  | Side.BID => decide (b < a)
  | Side.ASK => decide (a < b)

/-- The call `find` on the locator index. -/
def locatorFind : LocatorIndex → Nat → Option Locator
  | [], _ => none
  | (key, loc) :: rest, orderId => if key = orderId then some loc else locatorFind rest orderId

/-- The call `erase` on the locator index. -/
def locatorErase (index : LocatorIndex) (orderId : Nat) : LocatorIndex :=
  index.filter (fun entry => decide (entry.1 ≠ orderId))

/-- The call `insert` on the locator index (one entry per key). -/
def locatorInsert (index : LocatorIndex) (orderId : Nat) (loc : Locator) : LocatorIndex :=
  (orderId, loc) :: locatorErase index orderId

/-- The call `find` on a ladder side. -/
def findLevel : Ladder → Int → Option Queue
  | [], _ => none
  | (p, queue) :: rest, price => if p = price then some queue else findLevel rest price

/-- Removal of the node of order `orderId` from a queue (`std::list::erase`
at the stored position). -/
def eraseOrder (orderId : Nat) : Queue → Queue
  | [] => []
  | o :: rest => if o._orderId = orderId then rest else o :: eraseOrder orderId rest

/-- The ladder side selected by `side`. -/
def SimplePriceTimeBook.ladder (b : SimplePriceTimeBook) (side : Side) : Ladder :=
  match side with
  | Side.BID => b._bids
  | Side.ASK => b._asks

/-- Replacement of the ladder side selected by `side`. -/
def SimplePriceTimeBook.withLadder (b : SimplePriceTimeBook) (side : Side) (l : Ladder) :
    SimplePriceTimeBook :=
  match side with
  | Side.BID => { b with _bids := l }
  | Side.ASK => { b with _asks := l }

/-- The other side of the book. -/
def opposite : Side → Side
  | Side.BID => Side.ASK
  | Side.ASK => Side.BID

/-! ## Matching engine -/

/-- One execution: the resting (maker) order traded against, the execution
price and the traded quantity. -/
structure Fill where
  makerId : Nat
  price : Int
  quantity : Nat
  deriving DecidableEq, Repr

/-- The variables of the matching loop: the aggressor's remaining quantity,
the contra-side ladder, the locator index and the executions so far. -/
structure MatchState where
  remaining : Nat
  contra : Ladder
  index : LocatorIndex
  fills : List Fill
  deriving DecidableEq, Repr

/-- Modelled from the spec: the crossing test of step 2a of the matching
algorithm; the bodies of the `add*` members, which hold it, are not in the
sources. A market order (`none`) always crosses; a limit buy crosses iff
`bestContra ≤ limit`, a limit sell iff `bestContra ≥ limit`. -/
def crosses (side : Side) (limit : Option Int) (bestContra : Int) : Bool :=
  match limit, side with
  | none, _ => true
  | some limitPrice, Side.BID => decide (bestContra ≤ limitPrice)
  | some limitPrice, Side.ASK => decide (bestContra ≥ limitPrice)

/-- Modelled from the spec: one iteration of the loop of step 2 of the matching
algorithm; the bodies of the `add*` members, which hold the loop, are not in
the sources. The result is `none` when the loop condition or the crossing
test stops the loop. Steps 2b-2e: the front order of the best contra level
trades `min(remaining, front.remaining)`, a front order left with nothing is
removed together with its locator, and a level left with an empty queue is
removed. A level found with an empty queue, which invariant 2 excludes, is
removed as in step 2e. -/
def matchStep (cross : Int → Bool) (s : MatchState) : Option MatchState :=
  if s.remaining = 0 then none
  else
    match s.contra with
    | [] => none
    | (bestContra, queue) :: levels =>
      if cross bestContra = false then none
      else
        match queue with
        | [] => some { s with contra := levels }
        | front :: others =>
          let traded := min s.remaining front._remaining
          if front._remaining - traded = 0 then
            some { remaining := s.remaining - traded
                   contra := if others = [] then levels else (bestContra, others) :: levels
                   index := locatorErase s.index front._orderId
                   fills := s.fills ++ [⟨front._orderId, bestContra, traded⟩] }
          else
            some { remaining := s.remaining - traded
                   contra :=
                     (bestContra, { front with _remaining := front._remaining - traded } :: others)
                       :: levels
                   index := s.index
                   fills := s.fills ++ [⟨front._orderId, bestContra, traded⟩] }

/-- Modelled from the spec: the loop of step 2 of the matching algorithm (the
bodies of the `add*` members are not in the sources), run for at most `fuel`
iterations. -/
def matchLoop (cross : Int → Bool) : Nat → MatchState → MatchState
  | 0, s => s
  | fuel + 1, s =>
    match matchStep cross s with
    | none => s
    | some next => matchLoop cross fuel next

/-- Number of queue nodes and levels of a ladder side. -/
def ladderSize (l : Ladder) : Nat :=
  (l.map (fun level => level.2.length + 1)).sum

/-- An iteration bound for the matching loop: every iteration removes a node
or a level, or ends with nothing remaining, so the loop stops by its own
condition within this bound (`matchLoop_finished`). -/
def matchFuel (s : MatchState) : Nat :=
  ladderSize s.contra + 1

/-- Modelled from the spec: steps 1-2 of the matching algorithm (the bodies of
the `add*` members are not in the sources) for an incoming order of side
`side`, BID for a buy, run against the opposite ladder. -/
def matchIncoming (b : SimplePriceTimeBook) (side : Side) (limit : Option Int)
    (quantity : Nat) : MatchState :=
  let start : MatchState :=
    { remaining := quantity, contra := b.ladder (opposite side), index := b._liveOrders,
      fills := [] }
  matchLoop (crosses side limit) (matchFuel start) start

/-- Modelled from the spec: step 3 of the matching algorithm (the bodies of the
`add*` members are not in the sources), appending a resting order to the
queue at `price` on its own side, the level being created in key order when
absent. -/
def restAt (side : Side) (price : Int) (o : RestingOrder) : Ladder → Ladder
  | [] => [(price, [o])]
  | (p, queue) :: rest =>
    if p = price then (p, queue ++ [o]) :: rest
    else if better side price p then (price, [o]) :: (p, queue) :: rest
    else (p, queue) :: restAt side price o rest

/-- Modelled from the spec: the single algorithm of section 4.3 all four entry
points reduce to (their bodies are not in the sources), parameterised by
side, optional limit price and quantity. After the loop a limit order with
`remaining > 0` rests (step 3); the remainder of a market order is discarded
(step 4). -/
def addOrder (b : SimplePriceTimeBook) (side : Side) (limit : Option Int)
    (orderId quantity : Nat) : SimplePriceTimeBook :=
  let m := matchIncoming b side limit quantity
  let matched := { b.withLadder (opposite side) m.contra with _liveOrders := m.index }
  match limit with
  | none => matched
  | some price =>
    if 0 < m.remaining then
      { matched.withLadder side
          (restAt side price
            { _orderId := orderId, _remaining := m.remaining,
              _timestamp := matched._nextSequence }
            (matched.ladder side)) with
        _liveOrders := locatorInsert m.index orderId { side := side, price := price }
        _nextSequence := matched._nextSequence + 1 }
    else matched

/-- Modelled from the spec: the constructor `SimplePriceTimeBook()`, declared
without a body in the sources; it builds the empty book. -/
def SimplePriceTimeBook.empty : SimplePriceTimeBook :=
  { _bids := [], _asks := [], _liveOrders := [], _nextSequence := 0 }

/-- Modelled from the spec: the member `addMarketBuy`, declared without a body in
the sources. -/
def SimplePriceTimeBook.addMarketBuy (b : SimplePriceTimeBook) (orderId quantity : Nat) :
    SimplePriceTimeBook :=
  addOrder b Side.BID none orderId quantity

/-- Modelled from the spec: the member `addMarketSell`, declared without a body
in the sources. -/
def SimplePriceTimeBook.addMarketSell (b : SimplePriceTimeBook) (orderId quantity : Nat) :
    SimplePriceTimeBook :=
  addOrder b Side.ASK none orderId quantity

/-- Modelled from the spec: the member `addLimitBuy`, declared without a body in
the sources. -/
def SimplePriceTimeBook.addLimitBuy (b : SimplePriceTimeBook) (orderId : Nat) (priceT : Int)
    (quantity : Nat) : SimplePriceTimeBook :=
  addOrder b Side.BID (some priceT) orderId quantity

/-- Modelled from the spec: the member `addLimitSell`, declared without a body in
the sources. -/
def SimplePriceTimeBook.addLimitSell (b : SimplePriceTimeBook) (orderId : Nat) (priceT : Int)
    (quantity : Nat) : SimplePriceTimeBook :=
  addOrder b Side.ASK (some priceT) orderId quantity

/-! ## Cancel -/

/-- Modelled from the spec: the ladder update of the member `cancel` (section
4.4), whose body is not in the sources: order `orderId` is removed from the
queue at `price`, and the level is removed when its queue becomes empty. -/
def removeAt (price : Int) (orderId : Nat) : Ladder → Ladder
  | [] => []
  | (p, queue) :: rest =>
    if p = price then
      if eraseOrder orderId queue = [] then rest else (p, eraseOrder orderId queue) :: rest
    else (p, queue) :: removeAt price orderId rest

/-- Modelled from the spec: the member `cancel` (section 4.4), declared without
a body in the sources; the result and the book after the call. -/
def SimplePriceTimeBook.cancel (b : SimplePriceTimeBook) (orderId : Nat) :
    CancelResult × SimplePriceTimeBook :=
  match locatorFind b._liveOrders orderId with
  | none => (CancelResult.NOT_FOUND, b)
  | some loc =>
    (CancelResult.OK,
      { b.withLadder loc.side (removeAt loc.price orderId (b.ladder loc.side)) with
        _liveOrders := locatorErase b._liveOrders orderId })

/-! ## Queries -/

/-- Aggregate quantity of a queue: the sum of the remaining quantities. -/
def levelQuantity (queue : Queue) : Nat :=
  (queue.map (fun o => o._remaining)).sum

/-- Modelled from the spec: the member `bestQuote` (section 4.5), declared
without a body in the sources; the first price of each ladder side. -/
def SimplePriceTimeBook.bestQuote (b : SimplePriceTimeBook) : BestQuote :=
  { _bid := b._bids.head?.map (fun level => level.1)
    _ask := b._asks.head?.map (fun level => level.1) }

/-- Modelled from the spec: the member `depthQuantity` (section 4.5), declared
without a body in the sources; the aggregate quantity of the level, zero
when the level does not exist. The declared `Queue` has no cached aggregate,
so the aggregate is the sum over the queue. The result is the aggregate as a
natural number; the value it takes in the 64-bit type `Quantity` is
`toQuantity` of it. -/
def SimplePriceTimeBook.depthQuantity (b : SimplePriceTimeBook) (side : Side) (price : Int) :
    Nat :=
  match findLevel (b.ladder side) price with
  | none => 0
  | some queue => levelQuantity queue

/-- A call of one of the five mutating members. -/
inductive Op where
  | addMarketBuy (orderId quantity : Nat)
  | addMarketSell (orderId quantity : Nat)
  | addLimitBuy (orderId : Nat) (priceT : Int) (quantity : Nat)
  | addLimitSell (orderId : Nat) (priceT : Int) (quantity : Nat)
  | cancel (orderId : Nat)
  deriving DecidableEq, Repr

/-- The book after one call. -/
def step (b : SimplePriceTimeBook) : Op → SimplePriceTimeBook
  | Op.addMarketBuy orderId quantity => b.addMarketBuy orderId quantity
  | Op.addMarketSell orderId quantity => b.addMarketSell orderId quantity
  | Op.addLimitBuy orderId priceT quantity => b.addLimitBuy orderId priceT quantity
  | Op.addLimitSell orderId priceT quantity => b.addLimitSell orderId priceT quantity
  | Op.cancel orderId => (b.cancel orderId).2

/-- The book after a sequence of calls. -/
def run (b : SimplePriceTimeBook) (ops : List Op) : SimplePriceTimeBook :=
  ops.foldl step b

/-- Valid arguments of a call on book `b`: a submitted quantity is positive
and the submitted order id is not live. -/
def validOp (b : SimplePriceTimeBook) : Op → Bool
  | Op.addMarketBuy orderId quantity =>
    decide (0 < quantity) && (locatorFind b._liveOrders orderId).isNone
  | Op.addMarketSell orderId quantity =>
    decide (0 < quantity) && (locatorFind b._liveOrders orderId).isNone
  | Op.addLimitBuy orderId _ quantity =>
    decide (0 < quantity) && (locatorFind b._liveOrders orderId).isNone
  | Op.addLimitSell orderId _ quantity =>
    decide (0 < quantity) && (locatorFind b._liveOrders orderId).isNone
  | Op.cancel _ => true

/-- Every call of the sequence has valid arguments on the book it is made on. -/
def validRun (b : SimplePriceTimeBook) : List Op → Bool
  | [] => true
  | op :: ops => validOp b op && validRun (step b op) ops

/-! ## Specification-side vocabulary for the book -/

/-- The prices of a ladder side in iteration order. -/
def prices (l : Ladder) : List Int :=
  l.map (fun level => level.1)

/-- The locator entries the queues of a ladder side call for: one per queue
node, with the side and price of the queue holding it. -/
def ladderEntries (side : Side) (l : Ladder) : List (Nat × Locator) :=
  l.flatMap (fun level => level.2.map (fun o => (o._orderId, { side := side, price := level.1 })))

/-- The locator entries the whole book calls for. -/
def bookEntries (b : SimplePriceTimeBook) : List (Nat × Locator) :=
  ladderEntries Side.BID b._bids ++ ladderEntries Side.ASK b._asks

/-- The ids of the orders present in some price-level queue. -/
def restingIds (b : SimplePriceTimeBook) : List Nat :=
  (bookEntries b).map (fun entry => entry.1)

/-- The ids with an entry in the locator index. -/
def locatorIds (b : SimplePriceTimeBook) : List Nat :=
  b._liveOrders.map (fun entry => entry.1)

/-- The index holds exactly the entries `entries`, one per order id. -/
def Indexed (index : LocatorIndex) (entries : List (Nat × Locator)) : Prop :=
  (entries.map (fun e => e.1)).Nodup ∧
    ∀ (orderId : Nat) (loc : Locator),
      locatorFind index orderId = some loc ↔ (orderId, loc) ∈ entries

/-- Iteration of a ladder side visits distinct prices strictly best-first. -/
def SortedLadder (side : Side) (l : Ladder) : Prop :=
  (prices l).Pairwise (fun a b => better side a b = true)

/-- No price level of the ladder side has an empty queue (invariant 2). -/
def NoEmptyLevel (l : Ladder) : Prop :=
  ∀ level ∈ l, level.2 ≠ []

/-- Every resting order of the ladder side has `remaining > 0` (invariant 4). -/
def PositiveRemaining (l : Ladder) : Prop :=
  ∀ level ∈ l, ∀ o ∈ level.2, 0 < o._remaining

/-- The invariants of one ladder side. -/
def LadderOK (side : Side) (l : Ladder) : Prop :=
  SortedLadder side l ∧ NoEmptyLevel l ∧ PositiveRemaining l

/-- The invariants of the book: both ladder sides are in order, without empty
levels or exhausted orders, and the locator index holds exactly one entry per
queue node, with the side and price of the queue holding it (invariant 1). -/
def WellFormed (b : SimplePriceTimeBook) : Prop :=
  (∀ side : Side, LadderOK side (b.ladder side)) ∧ Indexed b._liveOrders (bookEntries b)

/-- The resting orders of a ladder side in priority order: levels in iteration
order, each queue front to back, every order paired with its price. -/
def priorityOrder (l : Ladder) : List (Int × RestingOrder) :=
  l.flatMap (fun level => level.2.map (fun o => (level.1, o)))

/-- The execution that fills a resting order in full at its own price. -/
def fullFill (x : Int × RestingOrder) : Fill :=
  { makerId := x.2._orderId, price := x.1, quantity := x.2._remaining }

/-- The relation the matching loop keeps between the contra ladder it started
from and its state: the executions so far fill a prefix `served` of the
priority order in full, in that order, followed at most by one partial
execution against the next order, which ends the loop; the contra ladder
holds what is left. -/
def Trace (start : Ladder) (s : MatchState) : Prop :=
  ∃ served waiting : List (Int × RestingOrder), priorityOrder start = served ++ waiting ∧
    ((s.fills = served.map fullFill ∧ priorityOrder s.contra = waiting) ∨
     (∃ (p : Int) (o : RestingOrder) (tail : List (Int × RestingOrder)) (x : Nat),
        waiting = (p, o) :: tail ∧ s.remaining = 0 ∧ x < o._remaining ∧
        s.fills = served.map fullFill ++ [⟨o._orderId, p, x⟩] ∧
        priorityOrder s.contra = (p, { o with _remaining := o._remaining - x }) :: tail))

/-- The book a sequence of calls leads to from the empty book. -/
def reached (ops : List Op) : SimplePriceTimeBook :=
  run SimplePriceTimeBook.empty ops

/-- The order ids a sequence of calls submits as limit orders. -/
def limitIds : List Op → List Nat
  | [] => []
  | Op.addLimitBuy orderId _ _ :: ops => orderId :: limitIds ops
  | Op.addLimitSell orderId _ _ :: ops => orderId :: limitIds ops
  | _ :: ops => limitIds ops

/-- Arrival order of a ladder side (invariant 3): within every queue the
arrival sequence numbers strictly increase front to back, and all lie below
the next number to be assigned. -/
def ArrivalOrdered (next : Nat) (l : Ladder) : Prop :=
  ∀ level ∈ l, (level.2.map (fun o => o._timestamp)).Pairwise (fun a b => a < b) ∧
    ∀ o ∈ level.2, o._timestamp < next

/-- Total resting quantity of a ladder side. -/
def ladderQuantity (l : Ladder) : Nat :=
  (l.map (fun level => levelQuantity level.2)).sum

/-- Total traded quantity of a list of executions. -/
def fillsQuantity (fills : List Fill) : Nat :=
  (fills.map (fun f => f.quantity)).sum

end order_book
/-! # Theorems: order entry -/

namespace order_entry

/-! ### Character classes -/

theorem isspace_of_isdigit {c : Char} (h : isdigit c = true) : isspace c = false := by
  simp only [isdigit, Bool.and_eq_true, decide_eq_true_eq] at h
  simp only [isspace, Bool.or_eq_false_iff, decide_eq_false_iff_not, Bool.and_eq_false_iff]
  omega

theorem splitSign_of_isdigit {c : Char} (t : List Char) (h : isdigit c = true) :
    splitSign (c :: t) = (false, c :: t) := by
  unfold splitSign
  split
  · rename_i heq
    injection heq with h1 _
    subst h1
    exact absurd h (by decide)
  · rename_i heq
    injection heq with h1 _
    subst h1
    exact absurd h (by decide)
  · rfl

theorem splitSign_sign (s : List Char) :
    (splitSign s).1 = true ∧ s = '-' :: (splitSign s).2 ∨
      (splitSign s).1 = false ∧ s = '+' :: (splitSign s).2 ∨
      (splitSign s).1 = false ∧ s = (splitSign s).2 := by
  unfold splitSign
  split
  · exact Or.inl ⟨rfl, rfl⟩
  · exact Or.inr (Or.inl ⟨rfl, rfl⟩)
  · exact Or.inr (Or.inr ⟨rfl, rfl⟩)

theorem digitChar_spec (d : Nat) (h : d < 10) :
    isdigit (Nat.digitChar d) = true ∧ (Nat.digitChar d).toNat - 48 = d := by
  interval_cases d <;> exact ⟨by decide, by decide⟩

theorem digitsValue_append_singleton (pre : List Char) (c : Char) :
    digitsValue (pre ++ [c]) = 10 * digitsValue pre + (c.toNat - 48) := by
  simp [digitsValue, List.foldl_append]

/-- The digits `Nat.toDigitsCore` pushes in front of its accumulator are a
non-empty run of decimal digits whose value is the number rendered. -/
theorem toDigitsCore_spec (fuel : Nat) :
    ∀ (n : Nat) (ds : List Char), n < fuel →
      ∃ pre : List Char, Nat.toDigitsCore 10 fuel n ds = pre ++ ds ∧ pre ≠ [] ∧
        (∀ c ∈ pre, isdigit c = true) ∧ digitsValue pre = n := by
  induction fuel with
  | zero => intro n ds h; omega
  | succ fuel ih =>
    intro n ds h
    have hd := digitChar_spec (n % 10) (Nat.mod_lt _ (by decide))
    unfold Nat.toDigitsCore
    by_cases h0 : n / 10 = 0
    · refine ⟨[Nat.digitChar (n % 10)], by simp [h0], by simp, ?_, ?_⟩
      · intro c hc
        rw [List.mem_singleton] at hc
        rw [hc]
        exact hd.1
      · have := digitsValue_append_singleton [] (Nat.digitChar (n % 10))
        simp only [List.nil_append] at this
        rw [this, hd.2]
        simp only [digitsValue, List.foldl_nil]
        omega
    · have hlt : n / 10 < fuel := by omega
      obtain ⟨pre, hpre, -, hdig, hval⟩ := ih (n / 10) (Nat.digitChar (n % 10) :: ds) hlt
      refine ⟨pre ++ [Nat.digitChar (n % 10)], by simp [h0, hpre], by simp, ?_, ?_⟩
      · intro c hc
        rcases List.mem_append.1 hc with hc | hc
        · exact hdig c hc
        · rw [List.mem_singleton] at hc
          rw [hc]
          exact hd.1
      · rw [digitsValue_append_singleton, hval, hd.2]
        omega

theorem toDigits_spec (n : Nat) :
    Nat.toDigits 10 n ≠ [] ∧ (∀ c ∈ Nat.toDigits 10 n, isdigit c = true) ∧
      digitsValue (Nat.toDigits 10 n) = n := by
  obtain ⟨pre, hpre, hne, hdig, hval⟩ := toDigitsCore_spec (n + 1) n [] (Nat.lt_succ_self n)
  have : Nat.toDigits 10 n = pre := by simp [Nat.toDigits, hpre]
  rw [this]
  exact ⟨hne, hdig, hval⟩

/-- On a bare run of digits `stoll` reads the whole run. -/
theorem stoll_digits (neg : Bool) (ds : List Char) (hne : ds ≠ [])
    (hdig : ∀ c ∈ ds, isdigit c = true) :
    stoll (if neg then '-' :: ds else ds) =
      (let value : Int := if neg then -(digitsValue ds : Int) else (digitsValue ds : Int)
       if value < -(2 : Int) ^ 63 ∨ (2 : Int) ^ 63 - 1 < value then .error Error.out_of_range
       else .ok value) := by
  obtain ⟨c, t, rfl⟩ := List.exists_cons_of_ne_nil hne
  have hc : isdigit c = true := hdig c (List.mem_cons_self _ _)
  have htake : List.takeWhile isdigit (c :: t) = c :: t :=
    List.takeWhile_eq_self_iff.2 hdig
  cases neg
  · have hdrop : List.dropWhile isspace (c :: t) = c :: t := by
      simp [List.dropWhile, isspace_of_isdigit hc]
    simp only [stoll, Bool.false_eq_true, if_false, hdrop, splitSign_of_isdigit t hc, htake]
    simp
  · have hdrop : List.dropWhile isspace ('-' :: c :: t) = '-' :: c :: t := by
      have : isspace '-' = false := by decide
      simp [List.dropWhile, this]
    have hsplit : splitSign ('-' :: c :: t) = (true, c :: t) := rfl
    simp only [stoll, if_true, hdrop, hsplit, htake]
    simp

/-! ### Numeric prefixes -/

theorem dropWhile_isspace_append (spaces tail : List Char)
    (hsp : ∀ c ∈ spaces, isspace c = true) :
    (spaces ++ tail).dropWhile isspace = tail.dropWhile isspace := by
  induction spaces with
  | nil => rfl
  | cons c t ih =>
    have hc : isspace c = true := hsp c (List.mem_cons_self _ _)
    have ht : ∀ d ∈ t, isspace d = true := fun d hd => hsp d (List.mem_cons_of_mem _ hd)
    simp [List.dropWhile, hc, ih ht]

/-- The digits `stoll` reads: non-empty exactly for strings with a numeric prefix. -/
theorem hasNumericPrefix_iff (s : List Char) :
    HasNumericPrefix s ↔
      (splitSign (s.dropWhile isspace)).2.takeWhile isdigit ≠ [] := by
  constructor
  · rintro ⟨spaces, sign, digits, rest, rfl, hsp, hsign, hne, hdig⟩
    obtain ⟨c, t, rfl⟩ := List.exists_cons_of_ne_nil hne
    have hc : isdigit c = true := hdig c (List.mem_cons_self _ _)
    have hcs : isspace c = false := isspace_of_isdigit hc
    rw [List.append_assoc, List.append_assoc, dropWhile_isspace_append _ _ hsp]
    rcases hsign with rfl | rfl | rfl
    · have hdrop : List.dropWhile isspace ([] ++ (c :: t ++ rest)) = c :: (t ++ rest) := by
        simp [List.dropWhile, hcs]
      rw [hdrop, splitSign_of_isdigit _ hc]
      simp [List.takeWhile, hc]
    · have hplus : isspace '+' = false := by decide
      have hdrop : List.dropWhile isspace (['+'] ++ (c :: t ++ rest)) = '+' :: c :: (t ++ rest) := by
        simp [List.dropWhile, hplus]
      have hsplit : splitSign ('+' :: c :: (t ++ rest)) = (false, c :: (t ++ rest)) := rfl
      rw [hdrop, hsplit]
      simp [List.takeWhile, hc]
    · have hminus : isspace '-' = false := by decide
      have hdrop : List.dropWhile isspace (['-'] ++ (c :: t ++ rest)) = '-' :: c :: (t ++ rest) := by
        simp [List.dropWhile, hminus]
      have hsplit : splitSign ('-' :: c :: (t ++ rest)) = (true, c :: (t ++ rest)) := rfl
      rw [hdrop, hsplit]
      simp [List.takeWhile, hc]
  · intro h
    have hs : s = s.takeWhile isspace ++ s.dropWhile isspace :=
      (List.takeWhile_append_dropWhile isspace s).symm
    have hb : (splitSign (s.dropWhile isspace)).2 =
        (splitSign (s.dropWhile isspace)).2.takeWhile isdigit ++
          (splitSign (s.dropWhile isspace)).2.dropWhile isdigit :=
      (List.takeWhile_append_dropWhile isdigit _).symm
    have hsp : ∀ c ∈ s.takeWhile isspace, isspace c = true := fun c hc =>
      List.mem_takeWhile_imp hc
    have hdig : ∀ c ∈ (splitSign (s.dropWhile isspace)).2.takeWhile isdigit, isdigit c = true :=
      fun c hc => List.mem_takeWhile_imp hc
    rcases splitSign_sign (s.dropWhile isspace) with ⟨-, hd⟩ | ⟨-, hd⟩ | ⟨-, hd⟩
    · refine ⟨s.takeWhile isspace, ['-'], (splitSign (s.dropWhile isspace)).2.takeWhile isdigit,
        (splitSign (s.dropWhile isspace)).2.dropWhile isdigit, ?_, hsp, Or.inr (Or.inr rfl), h, hdig⟩
      rw [List.append_assoc, List.append_assoc, ← hb]
      simpa using hs.trans (congrArg _ hd)
    · refine ⟨s.takeWhile isspace, ['+'], (splitSign (s.dropWhile isspace)).2.takeWhile isdigit,
        (splitSign (s.dropWhile isspace)).2.dropWhile isdigit, ?_, hsp, Or.inr (Or.inl rfl), h, hdig⟩
      rw [List.append_assoc, List.append_assoc, ← hb]
      simpa using hs.trans (congrArg _ hd)
    · refine ⟨s.takeWhile isspace, [], (splitSign (s.dropWhile isspace)).2.takeWhile isdigit,
        (splitSign (s.dropWhile isspace)).2.dropWhile isdigit, ?_, hsp, Or.inl rfl, h, hdig⟩
      rw [List.append_assoc, List.append_assoc, ← hb]
      simpa using hs.trans (congrArg _ hd)

theorem stoll_of_no_prefix (s : List Char) (h : ¬ HasNumericPrefix s) :
    stoll s = .error Error.invalid_argument := by
  have h0 : (splitSign (s.dropWhile isspace)).2.takeWhile isdigit = [] := by
    by_contra hne
    exact h ((hasNumericPrefix_iff s).2 hne)
  simp [stoll, h0]

theorem not_isSignedDecimal_of_mem (s : List Char) (c : Char) (hc : c ∈ s)
    (hd : isdigit c = false) (hp : c ≠ '+') (hm : c ≠ '-') : ¬ IsSignedDecimal s := by
  rintro ⟨sign, digits, rfl, hsign, -, hdig⟩
  rcases List.mem_append.1 hc with h | h
  · rcases hsign with rfl | rfl | rfl
    · simp at h
    · exact hp (List.mem_singleton.1 h)
    · exact hm (List.mem_singleton.1 h)
  · rw [hdig c h] at hd
    exact Bool.noConfusion hd

/-! ### Quantity -/

theorem stoll_range (s : List Char) (v : Int) (h : stoll s = .ok v) :
    -(2 : Int) ^ 63 ≤ v ∧ v ≤ (2 : Int) ^ 63 - 1 := by
  unfold stoll at h
  simp only at h
  split_ifs at h <;> cases h <;> omega

theorem parseQuantity_ok_iff (s : List Char) (q : Nat) :
    parseQuantity s = .ok q ↔ ∃ v : Int, stoll s = .ok v ∧ 0 < v ∧ (q : Int) = v := by
  unfold parseQuantity
  constructor
  · intro h
    split at h
    · exact Except.noConfusion h
    · rename_i qty hq
      split at h
      · exact Except.noConfusion h
      · rename_i hpos
        injection h with h
        have hr := stoll_range s qty hq
        refine ⟨qty, hq, by omega, ?_⟩
        subst h
        have : qty % (2 : Int) ^ 64 = qty := Int.emod_eq_of_lt (by omega) (by omega)
        rw [this]
        omega
  · rintro ⟨v, hv, hpos, hq⟩
    have hr := stoll_range s v hv
    rw [hv]
    simp only
    rw [if_neg (by omega)]
    have : v % (2 : Int) ^ 64 = v := Int.emod_eq_of_lt (by omega) (by omega)
    rw [this]
    congr 1
    omega

theorem NewOrder5_ok (now orderId : Nat) (symbol orderSide orderType quantity : List Char)
    (o : NewOrder)
    (h : NewOrder.NewOrder5 now orderId symbol orderSide orderType quantity = .ok o) :
    ∃ side type qty, parseOrderSide orderSide = .ok side ∧ parseOrderType orderType = .ok type ∧
      parseQuantity quantity = .ok qty ∧
      o = { _orderId := orderId, _symbol := symbol, _orderSide := side, _orderType := type,
            _quantity := qty, _priceTicks := none, _timePt := now } := by
  unfold NewOrder.NewOrder5 at h
  split at h
  · exact Except.noConfusion h
  · rename_i side hside
    split at h
    · exact Except.noConfusion h
    · rename_i type htype
      split at h
      · exact Except.noConfusion h
      · rename_i qty hqty
        injection h with h
        exact ⟨side, type, qty, hside, htype, hqty, h.symm⟩

theorem NewOrder6_ok (now orderId : Nat)
    (symbol orderSide orderType quantity priceTicks : List Char) (o : NewOrder)
    (h : NewOrder.NewOrder6 now orderId symbol orderSide orderType quantity priceTicks = .ok o) :
    ∃ o5 price, NewOrder.NewOrder5 now orderId symbol orderSide orderType quantity = .ok o5 ∧
      parsePriceTicks priceTicks = .ok price ∧ o = { o5 with _priceTicks := some price } := by
  unfold NewOrder.NewOrder6 at h
  split at h
  · exact Except.noConfusion h
  · rename_i o5 h5
    split at h
    · exact Except.noConfusion h
    · rename_i price hprice
      injection h with h
      exact ⟨o5, price, h5, hprice, h.symm⟩

/-! ### Properties of the entry layer -/

/-- C1 (defect witness): the five-argument constructor, documented as the
constructor for market orders, accepts the type token `limit`; the order it
builds has `_orderType = LIMIT` and no `_priceTicks`. -/
theorem C1_five_argument_limit_order_has_no_price (now : Nat) :
    NewOrder.NewOrder5 now 1 "AAPL".toList "buy".toList "limit".toList "10".toList =
      .ok { _orderId := 1, _symbol := "AAPL".toList, _orderSide := OrderSide.BUY,
            _orderType := OrderType.LIMIT, _quantity := 10, _priceTicks := none,
            _timePt := now } := by
  rfl

/-- C2 (counterexample): `12abc` is not an optional sign followed by digits
only, yet both numeric parsers return 12 for it. -/
theorem C2_trailing_text_is_accepted :
    ¬ IsSignedDecimal "12abc".toList ∧ parseQuantity "12abc".toList = .ok 12 ∧
      parsePriceTicks "12abc".toList = .ok 12 :=
  ⟨not_isSignedDecimal_of_mem _ 'a' (by decide) (by decide) (by decide) (by decide),
    by decide, by decide⟩

/-- C2 (amended): a string that does not start, after optional leading
whitespace, with an optional sign and at least one decimal digit is rejected
by `parseQuantity` and by `parsePriceTicks` with `invalid_argument`. -/
theorem C2_no_numeric_prefix_is_rejected (s : List Char) (h : ¬ HasNumericPrefix s) :
    parseQuantity s = .error Error.invalid_argument ∧
      parsePriceTicks s = .error Error.invalid_argument := by
  have hs := stoll_of_no_prefix s h
  simp [parseQuantity, parsePriceTicks, hs]

/-- C2 (amended), at the input `abc`. -/
theorem C2_no_numeric_prefix_is_rejected_witness :
    ¬ HasNumericPrefix "abc".toList ∧
      parseQuantity "abc".toList = .error Error.invalid_argument ∧
      parsePriceTicks "abc".toList = .error Error.invalid_argument :=
  have h : ¬ HasNumericPrefix "abc".toList := fun hp =>
    (hasNumericPrefix_iff _).1 hp (by decide)
  ⟨h, C2_no_numeric_prefix_is_rejected "abc".toList h⟩

/-- C3: every value `parseQuantity` returns is positive, every string whose
parsed integer is zero or negative is rejected with `invalid_argument`
(in particular `0` and `-5`), and so every `NewOrder` either constructor
builds has `_quantity > 0`. -/
theorem C3_quantity_is_positive :
    (∀ (s : List Char) (q : Nat), parseQuantity s = .ok q → 0 < q) ∧
    (∀ (s : List Char) (v : Int), stoll s = .ok v → v ≤ 0 →
      parseQuantity s = .error Error.invalid_argument) ∧
    parseQuantity "0".toList = .error Error.invalid_argument ∧
    parseQuantity "-5".toList = .error Error.invalid_argument ∧
    (∀ (now orderId : Nat) (symbol orderSide orderType quantity : List Char) (o : NewOrder),
      NewOrder.NewOrder5 now orderId symbol orderSide orderType quantity = .ok o →
        0 < o._quantity) ∧
    (∀ (now orderId : Nat) (symbol orderSide orderType quantity priceTicks : List Char)
      (o : NewOrder),
      NewOrder.NewOrder6 now orderId symbol orderSide orderType quantity priceTicks = .ok o →
        0 < o._quantity) := by
  have hpos : ∀ (s : List Char) (q : Nat), parseQuantity s = .ok q → 0 < q := by
    intro s q h
    obtain ⟨v, -, hv, hq⟩ := (parseQuantity_ok_iff s q).1 h
    omega
  have h5 : ∀ (now orderId : Nat) (symbol orderSide orderType quantity : List Char)
      (o : NewOrder),
      NewOrder.NewOrder5 now orderId symbol orderSide orderType quantity = .ok o →
        0 < o._quantity := by
    intro now orderId symbol orderSide orderType quantity o h
    obtain ⟨side, type, qty, -, -, hq, rfl⟩ := NewOrder5_ok _ _ _ _ _ _ _ h
    exact hpos quantity qty hq
  refine ⟨hpos, ?_, by decide, by decide, h5, ?_⟩
  · intro s v hv hle
    simp [parseQuantity, hv, hle]
  · intro now orderId symbol orderSide orderType quantity priceTicks o h
    obtain ⟨o5, price, h5o, -, rfl⟩ := NewOrder6_ok _ _ _ _ _ _ _ _ h
    exact h5 now orderId symbol orderSide orderType quantity o5 h5o

/-- C3, at the quantity field `7`, the quantity field `-5` and a constructed order. -/
theorem C3_quantity_is_positive_witness :
    (parseQuantity "7".toList = .ok 7 ∧ 0 < 7) ∧
    (stoll "-5".toList = .ok (-5) ∧
      parseQuantity "-5".toList = .error Error.invalid_argument) ∧
    (∀ o : NewOrder,
      NewOrder.NewOrder5 0 1 "AAPL".toList "sell".toList "market".toList "7".toList = .ok o →
        0 < o._quantity) :=
  ⟨⟨by decide, C3_quantity_is_positive.1 "7".toList 7 (by decide)⟩,
    ⟨by decide, C3_quantity_is_positive.2.1 "-5".toList (-5) (by decide) (by decide)⟩,
    fun o h => C3_quantity_is_positive.2.2.2.2.1 0 1 _ _ _ _ o h⟩

/-- C4: `parseOrderSide` returns BUY / SELL exactly for the tokens whose lower-case
form is `buy` / `sell` and throws `invalid_argument` for every other string;
`parseOrderType` does the same with `limit` / `market`. -/
theorem C4_side_and_type_tokens (s : List Char) :
    (toLower s = "buy".toList → parseOrderSide s = .ok OrderSide.BUY) ∧
    (toLower s = "sell".toList → parseOrderSide s = .ok OrderSide.SELL) ∧
    (toLower s ≠ "buy".toList → toLower s ≠ "sell".toList →
      parseOrderSide s = .error Error.invalid_argument) ∧
    (toLower s = "limit".toList → parseOrderType s = .ok OrderType.LIMIT) ∧
    (toLower s = "market".toList → parseOrderType s = .ok OrderType.MARKET) ∧
    (toLower s ≠ "limit".toList → toLower s ≠ "market".toList →
      parseOrderType s = .error Error.invalid_argument) := by
  refine ⟨?_, ?_, ?_, ?_, ?_, ?_⟩
  · intro h
    simp [parseOrderSide, h]
  · intro h
    have hne : toLower s ≠ "buy".toList := by rw [h]; decide
    simp only [parseOrderSide, if_neg hne, if_pos h]
  · intro h1 h2
    simp only [parseOrderSide, if_neg h1, if_neg h2]
  · intro h
    simp [parseOrderType, h]
  · intro h
    have hne : toLower s ≠ "limit".toList := by rw [h]; decide
    simp only [parseOrderType, if_neg hne, if_pos h]
  · intro h1 h2
    simp only [parseOrderType, if_neg h1, if_neg h2]

/-- C4, at the tokens `BuY`, `SELL`, `hold`, `Limit`, `MARKET` and `stop`. -/
theorem C4_side_and_type_tokens_witness :
    parseOrderSide "BuY".toList = .ok OrderSide.BUY ∧
    parseOrderSide "SELL".toList = .ok OrderSide.SELL ∧
    parseOrderSide "hold".toList = .error Error.invalid_argument ∧
    parseOrderType "Limit".toList = .ok OrderType.LIMIT ∧
    parseOrderType "MARKET".toList = .ok OrderType.MARKET ∧
    parseOrderType "stop".toList = .error Error.invalid_argument :=
  ⟨(C4_side_and_type_tokens "BuY".toList).1 (by decide),
    (C4_side_and_type_tokens "SELL".toList).2.1 (by decide),
    (C4_side_and_type_tokens "hold".toList).2.2.1 (by decide) (by decide),
    (C4_side_and_type_tokens "Limit".toList).2.2.2.1 (by decide),
    (C4_side_and_type_tokens "MARKET".toList).2.2.2.2.1 (by decide),
    (C4_side_and_type_tokens "stop".toList).2.2.2.2.2 (by decide) (by decide)⟩

/-- C5: prices are signed; for every integer `n` in the range of `int64_t`,
`parsePriceTicks` applied to the canonical decimal rendering of `n` returns
exactly `n`, zero and negative values included. -/
theorem C5_price_roundtrip (n : Int) (hlo : -(2 : Int) ^ 63 ≤ n) (hhi : n ≤ (2 : Int) ^ 63 - 1) :
    parsePriceTicks (renderInt n) = .ok n := by
  obtain ⟨hne, hdig, hval⟩ := toDigits_spec n.natAbs
  have hst : stoll (renderInt n) = .ok n := by
    by_cases hneg : n < 0
    · have h := stoll_digits true (Nat.toDigits 10 n.natAbs) hne hdig
      simp only [if_true, hval] at h
      rw [renderInt, if_pos hneg, h]
      have hn : -((n.natAbs : Nat) : Int) = n := by omega
      rw [hn, if_neg (by omega)]
    · have h := stoll_digits false (Nat.toDigits 10 n.natAbs) hne hdig
      simp only [Bool.false_eq_true, if_false, hval] at h
      rw [renderInt, if_neg hneg, h]
      have hn : ((n.natAbs : Nat) : Int) = n := by omega
      rw [hn, if_neg (by omega)]
  simp [parsePriceTicks, hst]

/-- C5, at the prices -5, 0 and the two ends of the range. -/
theorem C5_price_roundtrip_witness :
    parsePriceTicks (renderInt (-5)) = .ok (-5) ∧
    parsePriceTicks (renderInt 0) = .ok 0 ∧
    parsePriceTicks (renderInt (-9223372036854775808)) = .ok (-9223372036854775808) ∧
    parsePriceTicks (renderInt 9223372036854775807) = .ok 9223372036854775807 :=
  ⟨C5_price_roundtrip (-5) (by decide) (by decide),
    C5_price_roundtrip 0 (by decide) (by decide),
    C5_price_roundtrip (-9223372036854775808) (by decide) (by decide),
    C5_price_roundtrip 9223372036854775807 (by decide) (by decide)⟩

/-! ### Case mapping -/

theorem toNat_ofNat_upper (n : Nat) (h1 : 65 ≤ n) (h2 : n ≤ 90) :
    (Char.ofNat (n + 32)).toNat = n + 32 := by
  interval_cases n <;> rfl

theorem toNat_ofNat_lower (n : Nat) (h1 : 97 ≤ n) (h2 : n ≤ 122) :
    (Char.ofNat (n - 32)).toNat = n - 32 := by
  interval_cases n <;> rfl

theorem tolower_tolower (c : Char) : tolower (tolower c) = tolower c := by
  by_cases h : 65 ≤ c.toNat ∧ c.toNat ≤ 90
  · have hn := toNat_ofNat_upper c.toNat h.1 h.2
    have hnot : ¬ (65 ≤ (Char.ofNat (c.toNat + 32)).toNat ∧
        (Char.ofNat (c.toNat + 32)).toNat ≤ 90) := by
      rw [hn]
      omega
    simp only [tolower, if_pos h, if_neg hnot]
  · simp only [tolower, if_neg h]

theorem tolower_toupper (c : Char) : tolower (toupper c) = tolower c := by
  by_cases h : 97 ≤ c.toNat ∧ c.toNat ≤ 122
  · have hn := toNat_ofNat_lower c.toNat h.1 h.2
    have hup : 65 ≤ (Char.ofNat (c.toNat - 32)).toNat ∧
        (Char.ofNat (c.toNat - 32)).toNat ≤ 90 := by
      rw [hn]
      omega
    have hnot : ¬ (65 ≤ c.toNat ∧ c.toNat ≤ 90) := by omega
    have hback : c.toNat - 32 + 32 = c.toNat := by omega
    have hup2 : 65 ≤ c.toNat - 32 ∧ c.toNat - 32 ≤ 90 := by omega
    simp only [tolower, toupper, if_pos h, if_pos hup, if_pos hup2, if_neg hnot, hn, hback,
      Char.ofNat_toNat]
  · simp only [toupper, if_neg h]

theorem toLower_toUpper (s : List Char) : toLower (toUpper s) = toLower s := by
  simp only [toLower, toUpper, List.map_map]
  exact List.map_congr_left (fun c _ => tolower_toupper c)

theorem toLower_toLower (s : List Char) : toLower (toLower s) = toLower s := by
  simp only [toLower, List.map_map]
  exact List.map_congr_left (fun c _ => tolower_tolower c)

theorem parseOrderSide_congr (s t : List Char) (h : toLower s = toLower t) :
    parseOrderSide s = parseOrderSide t := by
  simp only [parseOrderSide, h]

theorem parseOrderType_congr (s t : List Char) (h : toLower s = toLower t) :
    parseOrderType s = parseOrderType t := by
  simp only [parseOrderType, h]

/-! ### Rendered integers and construction -/

/-- The value `stoll` reads back from the canonical rendering of an integer. -/
theorem stoll_renderInt (n : Int) :
    stoll (renderInt n) =
      if n < -(2 : Int) ^ 63 ∨ (2 : Int) ^ 63 - 1 < n then .error Error.out_of_range
      else .ok n := by
  obtain ⟨hne, hdig, hval⟩ := toDigits_spec n.natAbs
  by_cases hneg : n < 0
  · have h := stoll_digits true (Nat.toDigits 10 n.natAbs) hne hdig
    simp only [if_true, hval] at h
    have hn : -((n.natAbs : Nat) : Int) = n := by omega
    rw [renderInt, if_pos hneg, h, hn]
  · have h := stoll_digits false (Nat.toDigits 10 n.natAbs) hne hdig
    simp only [Bool.false_eq_true, if_false, hval] at h
    have hn : ((n.natAbs : Nat) : Int) = n := by omega
    rw [renderInt, if_neg hneg, h, hn]

theorem NewOrder5_of_parsed (now orderId : Nat) (symbol orderSide orderType quantity : List Char)
    (side : OrderSide) (type : OrderType) (qty : Nat)
    (hs : parseOrderSide orderSide = .ok side) (ht : parseOrderType orderType = .ok type)
    (hq : parseQuantity quantity = .ok qty) :
    NewOrder.NewOrder5 now orderId symbol orderSide orderType quantity =
      .ok { _orderId := orderId, _symbol := symbol, _orderSide := side, _orderType := type,
            _quantity := qty, _priceTicks := none, _timePt := now } := by
  simp only [NewOrder.NewOrder5, hs, ht, hq]

theorem NewOrder6_of_parsed (now orderId : Nat)
    (symbol orderSide orderType quantity priceTicks : List Char)
    (side : OrderSide) (type : OrderType) (qty : Nat) (price : Int)
    (hs : parseOrderSide orderSide = .ok side) (ht : parseOrderType orderType = .ok type)
    (hq : parseQuantity quantity = .ok qty) (hp : parsePriceTicks priceTicks = .ok price) :
    NewOrder.NewOrder6 now orderId symbol orderSide orderType quantity priceTicks =
      .ok { _orderId := orderId, _symbol := symbol, _orderSide := side, _orderType := type,
            _quantity := qty, _priceTicks := some price, _timePt := now } := by
  simp only [NewOrder.NewOrder6,
    NewOrder5_of_parsed now orderId symbol orderSide orderType quantity side type qty hs ht hq, hp]

/-! ### Further properties of the entry layer -/

/-- C14: `parseQuantity` returns exactly `n` on the canonical rendering of every
`n` with `1 ≤ n ≤ 2^63 - 1` and fails (`out_of_range`) on the rendering of
every `n ≥ 2^63`, the values `2^63 .. 2^64 - 1` of the unsigned quantity type
included; every value it returns lies in `[1, 2^63 - 1]` and equals the
signed value `stoll` read, so the cast to `uint64_t` changes nothing. -/
theorem C14_quantity_range :
    (∀ n : Nat, 1 ≤ n → n ≤ 2 ^ 63 - 1 → parseQuantity (renderInt (n : Int)) = .ok n) ∧
    (∀ n : Nat, 2 ^ 63 ≤ n →
      parseQuantity (renderInt (n : Int)) = .error Error.out_of_range) ∧
    (∀ (s : List Char) (q : Nat), parseQuantity s = .ok q →
      1 ≤ q ∧ q ≤ 2 ^ 63 - 1 ∧ ∃ v : Int, stoll s = .ok v ∧ (q : Int) = v) := by
  refine ⟨?_, ?_, ?_⟩
  · intro n h1 h2
    have hst : stoll (renderInt (n : Int)) = .ok (n : Int) := by
      rw [stoll_renderInt, if_neg (by omega)]
    exact (parseQuantity_ok_iff _ n).2 ⟨(n : Int), hst, by omega, rfl⟩
  · intro n h
    have hst : stoll (renderInt (n : Int)) = .error Error.out_of_range := by
      rw [stoll_renderInt, if_pos (by omega)]
    simp only [parseQuantity, hst]
  · intro s q h
    obtain ⟨v, hv, hpos, hq⟩ := (parseQuantity_ok_iff s q).1 h
    have hr := stoll_range s v hv
    exact ⟨by omega, by omega, v, hv, hq⟩

/-- C14, at the quantities 1, `2^63 - 1`, `2^63` and `2^64 - 1`. -/
theorem C14_quantity_range_witness :
    parseQuantity (renderInt 1) = .ok 1 ∧
    parseQuantity (renderInt 9223372036854775807) = .ok 9223372036854775807 ∧
    parseQuantity (renderInt 9223372036854775808) = .error Error.out_of_range ∧
    parseQuantity (renderInt 18446744073709551615) = .error Error.out_of_range ∧
    (1 ≤ 42 ∧ 42 ≤ 2 ^ 63 - 1 ∧ ∃ v : Int, stoll "42".toList = .ok v ∧ ((42 : Nat) : Int) = v) :=
  ⟨C14_quantity_range.1 1 (by decide) (by decide),
    C14_quantity_range.1 9223372036854775807 (by decide) (by decide),
    C14_quantity_range.2.1 9223372036854775808 (by decide),
    C14_quantity_range.2.1 18446744073709551615 (by decide),
    C14_quantity_range.2.2 "42".toList 42 (by decide)⟩

/-- C15: the five-argument constructor succeeds exactly when `parseOrderSide`,
`parseOrderType` and `parseQuantity` succeed, the six-argument one exactly
when `parsePriceTicks` succeeds as well; the order built carries the id and
symbol given and the parsers' results, with `_priceTicks` absent in the
five-argument form and equal to the parsed price in the six-argument form,
whatever the order type. -/
theorem C15_construction_all_or_nothing :
    (∀ (now orderId : Nat) (symbol orderSide orderType quantity : List Char),
      (∃ o, NewOrder.NewOrder5 now orderId symbol orderSide orderType quantity = .ok o) ↔
        (∃ side, parseOrderSide orderSide = .ok side) ∧
        (∃ type, parseOrderType orderType = .ok type) ∧
        (∃ qty, parseQuantity quantity = .ok qty)) ∧
    (∀ (now orderId : Nat) (symbol orderSide orderType quantity priceTicks : List Char),
      (∃ o, NewOrder.NewOrder6 now orderId symbol orderSide orderType quantity priceTicks
          = .ok o) ↔
        (∃ side, parseOrderSide orderSide = .ok side) ∧
        (∃ type, parseOrderType orderType = .ok type) ∧
        (∃ qty, parseQuantity quantity = .ok qty) ∧
        (∃ price, parsePriceTicks priceTicks = .ok price)) ∧
    (∀ (now orderId : Nat) (symbol orderSide orderType quantity : List Char)
      (side : OrderSide) (type : OrderType) (qty : Nat),
      parseOrderSide orderSide = .ok side → parseOrderType orderType = .ok type →
      parseQuantity quantity = .ok qty →
      NewOrder.NewOrder5 now orderId symbol orderSide orderType quantity =
        .ok { _orderId := orderId, _symbol := symbol, _orderSide := side, _orderType := type,
              _quantity := qty, _priceTicks := none, _timePt := now }) ∧
    (∀ (now orderId : Nat) (symbol orderSide orderType quantity priceTicks : List Char)
      (side : OrderSide) (type : OrderType) (qty : Nat) (price : Int),
      parseOrderSide orderSide = .ok side → parseOrderType orderType = .ok type →
      parseQuantity quantity = .ok qty → parsePriceTicks priceTicks = .ok price →
      NewOrder.NewOrder6 now orderId symbol orderSide orderType quantity priceTicks =
        .ok { _orderId := orderId, _symbol := symbol, _orderSide := side, _orderType := type,
              _quantity := qty, _priceTicks := some price, _timePt := now }) := by
  refine ⟨?_, ?_, ?_, ?_⟩
  · intro now orderId symbol orderSide orderType quantity
    constructor
    · rintro ⟨o, h⟩
      obtain ⟨side, type, qty, hs, ht, hq, -⟩ := NewOrder5_ok _ _ _ _ _ _ _ h
      exact ⟨⟨side, hs⟩, ⟨type, ht⟩, ⟨qty, hq⟩⟩
    · rintro ⟨⟨side, hs⟩, ⟨type, ht⟩, ⟨qty, hq⟩⟩
      exact ⟨_, NewOrder5_of_parsed now orderId symbol orderSide orderType quantity
        side type qty hs ht hq⟩
  · intro now orderId symbol orderSide orderType quantity priceTicks
    constructor
    · rintro ⟨o, h⟩
      obtain ⟨o5, price, h5, hp, -⟩ := NewOrder6_ok _ _ _ _ _ _ _ _ h
      obtain ⟨side, type, qty, hs, ht, hq, -⟩ := NewOrder5_ok _ _ _ _ _ _ _ h5
      exact ⟨⟨side, hs⟩, ⟨type, ht⟩, ⟨qty, hq⟩, ⟨price, hp⟩⟩
    · rintro ⟨⟨side, hs⟩, ⟨type, ht⟩, ⟨qty, hq⟩, ⟨price, hp⟩⟩
      exact ⟨_, NewOrder6_of_parsed now orderId symbol orderSide orderType quantity priceTicks
        side type qty price hs ht hq hp⟩
  · intro now orderId symbol orderSide orderType quantity side type qty hs ht hq
    exact NewOrder5_of_parsed now orderId symbol orderSide orderType quantity side type qty
      hs ht hq
  · intro now orderId symbol orderSide orderType quantity priceTicks side type qty price
      hs ht hq hp
    exact NewOrder6_of_parsed now orderId symbol orderSide orderType quantity priceTicks
      side type qty price hs ht hq hp

/-- C15, for a market order built with six arguments and a limit order built
with five. -/
theorem C15_construction_all_or_nothing_witness :
    NewOrder.NewOrder6 3 7 "MSFT".toList "sell".toList "market".toList "12".toList
        "-4".toList =
      .ok { _orderId := 7, _symbol := "MSFT".toList, _orderSide := OrderSide.SELL,
            _orderType := OrderType.MARKET, _quantity := 12, _priceTicks := some (-4),
            _timePt := 3 } ∧
    NewOrder.NewOrder5 3 8 "MSFT".toList "buy".toList "limit".toList "5".toList =
      .ok { _orderId := 8, _symbol := "MSFT".toList, _orderSide := OrderSide.BUY,
            _orderType := OrderType.LIMIT, _quantity := 5, _priceTicks := none,
            _timePt := 3 } :=
  ⟨C15_construction_all_or_nothing.2.2.2 3 7 "MSFT".toList "sell".toList "market".toList
      "12".toList "-4".toList OrderSide.SELL OrderType.MARKET 12 (-4)
      (by decide) (by decide) (by decide) (by decide),
    C15_construction_all_or_nothing.2.2.1 3 8 "MSFT".toList "buy".toList "limit".toList
      "5".toList OrderSide.BUY OrderType.LIMIT 5 (by decide) (by decide) (by decide)⟩

/-- C16: token parsing is case-insensitive. `parseOrderSide` and `parseOrderType`
give the same result (value or exception) on `toUpper s`, `toLower s` and
`s`, because `toLower (toUpper s) = toLower s` and `toLower` is idempotent;
`toLower` and `toUpper` preserve the length. -/
theorem C16_case_insensitive (s : List Char) :
    parseOrderSide (toUpper s) = parseOrderSide s ∧
    parseOrderSide (toLower s) = parseOrderSide s ∧
    parseOrderType (toUpper s) = parseOrderType s ∧
    parseOrderType (toLower s) = parseOrderType s ∧
    toLower (toUpper s) = toLower s ∧
    toLower (toLower s) = toLower s ∧
    (toLower s).length = s.length ∧
    (toUpper s).length = s.length :=
  ⟨parseOrderSide_congr _ _ (toLower_toUpper s), parseOrderSide_congr _ _ (toLower_toLower s),
    parseOrderType_congr _ _ (toLower_toUpper s), parseOrderType_congr _ _ (toLower_toLower s),
    toLower_toUpper s, toLower_toLower s, by simp [toLower], by simp [toUpper]⟩

/-- C17: a request built by a factory holds exactly one payload. `makeNewOrder o`
has `_newOrder = o` and no `_cancelOrder`; `makeCancelOrder c` has
`_cancelOrder = c` and no `_newOrder`; neither factory yields both payloads
or none. -/
theorem C17_exactly_one_payload :
    (∀ o : NewOrder,
      (OrderRequest.makeNewOrder o)._newOrder = some o ∧
      (OrderRequest.makeNewOrder o)._cancelOrder = none ∧
      ((OrderRequest.makeNewOrder o)._newOrder.isSome !=
        (OrderRequest.makeNewOrder o)._cancelOrder.isSome) = true) ∧
    (∀ c : CancelOrder,
      (OrderRequest.makeCancelOrder c)._cancelOrder = some c ∧
      (OrderRequest.makeCancelOrder c)._newOrder = none ∧
      ((OrderRequest.makeCancelOrder c)._newOrder.isSome !=
        (OrderRequest.makeCancelOrder c)._cancelOrder.isSome) = true) :=
  ⟨fun _ => ⟨rfl, rfl, rfl⟩, fun _ => ⟨rfl, rfl, rfl⟩⟩

end order_entry

/-! # Theorems: order book -/

namespace order_book

/-! ### Locator index -/

theorem locatorFind_erase (index : LocatorIndex) (k orderId : Nat) :
    locatorFind (locatorErase index k) orderId =
      if orderId = k then none else locatorFind index orderId := by
  induction index with
  | nil => simp [locatorErase, locatorFind]
  | cons e rest ih =>
    obtain ⟨key, loc⟩ := e
    unfold locatorErase at ih ⊢
    by_cases hk : key = k
    · subst hk
      simp only [List.filter, ne_eq, not_true_eq_false, decide_False, locatorFind]
      rw [ih]
      by_cases h : orderId = key
      · simp [h]
      · have h2 : ¬ key = orderId := fun e => h e.symm
        simp [h, h2]
    · simp only [List.filter, ne_eq, hk, not_false_eq_true, decide_True, locatorFind]
      rw [ih]
      by_cases h : key = orderId
      · have h2 : ¬ orderId = k := fun e => hk (h.trans e)
        simp [h, h2]
      · simp [h]

theorem locatorFind_insert (index : LocatorIndex) (k orderId : Nat) (loc : Locator) :
    locatorFind (locatorInsert index k loc) orderId =
      if orderId = k then some loc else locatorFind index orderId := by
  unfold locatorInsert
  simp only [locatorFind]
  rw [locatorFind_erase]
  by_cases h : orderId = k
  · simp [h]
  · have h2 : ¬ k = orderId := fun e => h e.symm
    simp [h, h2]

theorem locatorFind_isSome_iff (index : LocatorIndex) (orderId : Nat) :
    (∃ loc, locatorFind index orderId = some loc) ↔ orderId ∈ index.map (fun e => e.1) := by
  induction index with
  | nil => simp [locatorFind]
  | cons e rest ih =>
    obtain ⟨key, loc⟩ := e
    simp only [locatorFind, List.map_cons, List.mem_cons]
    by_cases h : key = orderId
    · simp [h]
    · have h2 : ¬ orderId = key := fun e => h e.symm
      simp only [h, if_false, h2, false_or]
      exact ih

theorem Indexed.perm {index : LocatorIndex} {e1 e2 : List (Nat × Locator)}
    (h : Indexed index e1) (hp : e1.Perm e2) : Indexed index e2 :=
  ⟨(hp.map _).nodup_iff.1 h.1, fun orderId loc => (h.2 orderId loc).trans hp.mem_iff⟩

theorem Indexed.erase_head {index : LocatorIndex} {k : Nat} {loc : Locator}
    {entries : List (Nat × Locator)} (h : Indexed index ((k, loc) :: entries)) :
    Indexed (locatorErase index k) entries := by
  obtain ⟨hnd, hfind⟩ := h
  simp only [List.map_cons, List.nodup_cons] at hnd
  refine ⟨hnd.2, fun orderId l => ?_⟩
  rw [locatorFind_erase]
  by_cases hk : orderId = k
  · subst hk
    simp only [if_true]
    constructor
    · intro h
      exact Option.noConfusion h
    · intro hmem
      exact absurd (List.mem_map_of_mem (fun e => e.1) hmem) hnd.1
  · simp only [hk, if_false]
    rw [hfind]
    simp only [List.mem_cons, Prod.mk.injEq, hk, false_and, false_or]

theorem Indexed.insert_head {index : LocatorIndex} {k : Nat} {loc : Locator}
    {entries : List (Nat × Locator)} (h : Indexed index entries)
    (hfresh : locatorFind index k = none) :
    Indexed (locatorInsert index k loc) ((k, loc) :: entries) := by
  obtain ⟨hnd, hfind⟩ := h
  have hk : k ∉ entries.map (fun e => e.1) := by
    intro hmem
    obtain ⟨e, he, hek⟩ := List.mem_map.1 hmem
    obtain ⟨k2, l2⟩ := e
    simp only at hek
    subst hek
    have := (hfind k2 l2).2 he
    rw [hfresh] at this
    exact Option.noConfusion this
  refine ⟨by simp only [List.map_cons, List.nodup_cons]; exact ⟨hk, hnd⟩, fun orderId l => ?_⟩
  rw [locatorFind_insert]
  by_cases h : orderId = k
  · subst h
    simp only [if_true, List.mem_cons, Prod.mk.injEq, true_and, Option.some.injEq]
    constructor
    · intro h
      exact Or.inl h.symm
    · rintro (h | h)
      · exact h.symm
      · exact absurd (List.mem_map_of_mem (fun e => e.1) h) hk
  · simp only [h, if_false, List.mem_cons, Prod.mk.injEq, false_and, false_or]
    exact hfind orderId l

theorem Indexed.fresh {index : LocatorIndex} {entries : List (Nat × Locator)}
    (h : Indexed index entries) (orderId : Nat) :
    locatorFind index orderId = none ↔ orderId ∉ entries.map (fun e => e.1) := by
  constructor
  · intro hnone hmem
    obtain ⟨e, he, hek⟩ := List.mem_map.1 hmem
    obtain ⟨k2, l2⟩ := e
    simp only at hek
    subst hek
    have := (h.2 k2 l2).2 he
    rw [hnone] at this
    exact Option.noConfusion this
  · intro hnot
    cases hf : locatorFind index orderId with
    | none => rfl
    | some loc =>
      exact absurd (List.mem_map_of_mem (fun e => e.1) ((h.2 orderId loc).1 hf)) hnot

/-! ### One iteration of the matching loop -/

/-- The three shapes of an iteration: an empty level is dropped, the front
order is filled in full and removed, or the front order is filled in part
and the aggressor is exhausted. -/
theorem matchStep_cases (cross : Int → Bool) (s next : MatchState)
    (h : matchStep cross s = some next) :
    s.remaining ≠ 0 ∧ ∃ (p : Int) (queue : Queue) (levels : Ladder),
      s.contra = (p, queue) :: levels ∧ cross p = true ∧
      ((queue = [] ∧ next = { s with contra := levels }) ∨
       (∃ (front : RestingOrder) (others : Queue), queue = front :: others ∧
          front._remaining ≤ s.remaining ∧
          next = { remaining := s.remaining - front._remaining
                   contra := if others = [] then levels else (p, others) :: levels
                   index := locatorErase s.index front._orderId
                   fills := s.fills ++ [⟨front._orderId, p, front._remaining⟩] }) ∨
       (∃ (front : RestingOrder) (others : Queue), queue = front :: others ∧
          s.remaining < front._remaining ∧
          next = { remaining := 0
                   contra :=
                     (p, { front with _remaining := front._remaining - s.remaining } :: others)
                       :: levels
                   index := s.index
                   fills := s.fills ++ [⟨front._orderId, p, s.remaining⟩] })) := by
  unfold matchStep at h
  by_cases hrem : s.remaining = 0
  · rw [if_pos hrem] at h
    exact Option.noConfusion h
  · rw [if_neg hrem] at h
    refine ⟨hrem, ?_⟩
    cases hc : s.contra with
    | nil =>
      rw [hc] at h
      exact Option.noConfusion h
    | cons level levels =>
      obtain ⟨p, queue⟩ := level
      rw [hc] at h
      simp only at h
      by_cases hx : cross p = false
      · rw [if_pos hx] at h
        exact Option.noConfusion h
      · rw [if_neg hx] at h
        have hx2 : cross p = true := by
          cases hb : cross p with
          | true => rfl
          | false => exact absurd hb hx
        refine ⟨p, queue, levels, rfl, hx2, ?_⟩
        cases queue with
        | nil =>
          simp only [Option.some.injEq] at h
          exact Or.inl ⟨rfl, h.symm⟩
        | cons front others =>
          simp only at h
          by_cases hle : front._remaining ≤ s.remaining
          · have hmin : min s.remaining front._remaining = front._remaining :=
              Nat.min_eq_right hle
            rw [hmin, if_pos (Nat.sub_self _)] at h
            simp only [Option.some.injEq] at h
            exact Or.inr (Or.inl ⟨front, others, rfl, hle, h.symm⟩)
          · have hlt : s.remaining < front._remaining := Nat.lt_of_not_le hle
            have hmin : min s.remaining front._remaining = s.remaining :=
              Nat.min_eq_left (Nat.le_of_lt hlt)
            rw [hmin, if_neg (by omega), Nat.sub_self] at h
            simp only [Option.some.injEq] at h
            exact Or.inr (Or.inr ⟨front, others, rfl, hlt, h.symm⟩)

/-- A property every iteration preserves holds after the loop. -/
theorem matchLoop_invariant (cross : Int → Bool) (P : MatchState → Prop)
    (hstep : ∀ s next, P s → matchStep cross s = some next → P next) :
    ∀ (fuel : Nat) (s : MatchState), P s → P (matchLoop cross fuel s) := by
  intro fuel
  induction fuel with
  | zero => intro s hs; exact hs
  | succ fuel ih =>
    intro s hs
    unfold matchLoop
    cases hm : matchStep cross s with
    | none => exact hs
    | some next => exact ih next (hstep s next hs hm)

/-- Size of the loop state: every iteration makes it strictly smaller. -/
theorem matchStep_decreases (cross : Int → Bool) (s next : MatchState)
    (h : matchStep cross s = some next) :
    ladderSize next.contra + (if next.remaining = 0 then 0 else 1) <
      ladderSize s.contra + (if s.remaining = 0 then 0 else 1) := by
  obtain ⟨hrem, p, queue, levels, hc, -, hcase⟩ := matchStep_cases cross s next h
  rw [hc, if_neg hrem]
  rcases hcase with ⟨hq, rfl⟩ | ⟨front, others, hq, hle, rfl⟩ | ⟨front, others, hq, hlt, rfl⟩
  · subst hq
    simp only [ladderSize, List.map_cons, List.sum_cons, List.length_nil, if_neg hrem]
    omega
  · subst hq
    by_cases ho : others = []
    · simp only [ho, if_true, ladderSize, List.map_cons, List.sum_cons, List.length_cons,
        List.length_nil]
      split <;> omega
    · simp only [ho, if_false, ladderSize, List.map_cons, List.sum_cons, List.length_cons]
      split <;> omega
  · subst hq
    simp only [ladderSize, List.map_cons, List.sum_cons, List.length_cons, if_true]
    omega

/-- With fuel for every node and level the loop always ends by its own
condition: no further iteration is possible in the state it returns. -/
theorem matchLoop_finished (cross : Int → Bool) :
    ∀ (fuel : Nat) (s : MatchState),
      ladderSize s.contra + (if s.remaining = 0 then 0 else 1) ≤ fuel →
        matchStep cross (matchLoop cross fuel s) = none := by
  intro fuel
  induction fuel with
  | zero =>
    intro s hs
    have hrem : s.remaining = 0 := by
      by_contra hne
      rw [if_neg hne] at hs
      omega
    simp [matchLoop, matchStep, hrem]
  | succ fuel ih =>
    intro s hs
    unfold matchLoop
    cases hm : matchStep cross s with
    | none => exact hm
    | some next =>
      have := matchStep_decreases cross s next hm
      exact ih next (by omega)

theorem matchIncoming_finished (b : SimplePriceTimeBook) (side : Side) (limit : Option Int)
    (quantity : Nat) :
    matchStep (crosses side limit) (matchIncoming b side limit quantity) = none := by
  unfold matchIncoming
  apply matchLoop_finished
  simp only [matchFuel]
  split <;> omega

/-! ### Key order -/

theorem better_irrefl (side : Side) (a : Int) : better side a a = false := by
  cases side <;> simp [better]

theorem better_trans (side : Side) {a b c : Int} (hab : better side a b = true)
    (hbc : better side b c = true) : better side a c = true := by
  cases side <;> simp only [better, decide_eq_true_eq] at * <;> omega

theorem better_of_not (side : Side) {a b : Int} (hne : a ≠ b)
    (h : better side a b = false) : better side b a = true := by
  cases side <;> simp only [better, decide_eq_true_eq, decide_eq_false_iff_not] at * <;> omega

theorem better_asymm (side : Side) {a b : Int} (hab : better side a b = true) :
    better side b a = false := by
  cases side <;> simp only [better, decide_eq_true_eq, decide_eq_false_iff_not] at * <;> omega

theorem better_ne (side : Side) {a b : Int} (hab : better side a b = true) : a ≠ b := by
  intro h
  subst h
  rw [better_irrefl] at hab
  exact Bool.noConfusion hab

/-! ### Ladder sides -/

theorem ladderEntries_cons (side : Side) (p : Int) (queue : Queue) (l : Ladder) :
    ladderEntries side ((p, queue) :: l) =
      queue.map (fun o => (o._orderId, ({ side := side, price := p } : Locator))) ++
        ladderEntries side l := by
  simp [ladderEntries]

theorem ladderEntries_nil (side : Side) : ladderEntries side [] = [] := rfl

theorem mem_ladderEntries (side : Side) (l : Ladder) (orderId : Nat) (loc : Locator) :
    (orderId, loc) ∈ ladderEntries side l ↔
      ∃ (p : Int) (queue : Queue), (p, queue) ∈ l ∧ loc = { side := side, price := p } ∧
        ∃ o ∈ queue, o._orderId = orderId := by
  induction l with
  | nil => simp [ladderEntries]
  | cons level rest ih =>
    obtain ⟨p, queue⟩ := level
    rw [ladderEntries_cons, List.mem_append, ih]
    constructor
    · rintro (h | ⟨p2, q2, hmem, hloc, ho⟩)
      · obtain ⟨o, ho, heq⟩ := List.mem_map.1 h
        simp only [Prod.mk.injEq] at heq
        exact ⟨p, queue, List.mem_cons_self _ _, heq.2.symm, o, ho, heq.1⟩
      · exact ⟨p2, q2, List.mem_cons_of_mem _ hmem, hloc, ho⟩
    · rintro ⟨p2, q2, hmem, hloc, o, ho, hid⟩
      rcases List.mem_cons.1 hmem with heq | hmem
      · simp only [Prod.mk.injEq] at heq
        obtain ⟨rfl, rfl⟩ := heq
        left
        exact List.mem_map.2 ⟨o, ho, by simp [hid, hloc]⟩
      · exact Or.inr ⟨p2, q2, hmem, hloc, o, ho, hid⟩

theorem ladderEntries_price_mem (side : Side) (l : Ladder) (orderId : Nat) (loc : Locator)
    (h : (orderId, loc) ∈ ladderEntries side l) : loc.side = side ∧ loc.price ∈ prices l := by
  obtain ⟨p, queue, hmem, hloc, -⟩ := (mem_ladderEntries side l orderId loc).1 h
  subst hloc
  exact ⟨rfl, List.mem_map.2 ⟨(p, queue), hmem, rfl⟩⟩

theorem LadderOK.nil (side : Side) : LadderOK side [] :=
  ⟨List.Pairwise.nil, fun _ h => absurd h (List.not_mem_nil _),
    fun _ h => absurd h (List.not_mem_nil _)⟩

theorem LadderOK.tail {side : Side} {level : Int × Queue} {l : Ladder}
    (h : LadderOK side (level :: l)) : LadderOK side l := by
  obtain ⟨hs, hn, hp⟩ := h
  refine ⟨?_, fun lv hl => hn lv (List.mem_cons_of_mem _ hl),
    fun lv hl => hp lv (List.mem_cons_of_mem _ hl)⟩
  unfold SortedLadder prices at hs ⊢
  rw [List.map_cons] at hs
  exact (List.pairwise_cons.1 hs).2

/-- Replacing the queue of the first level by a non-empty queue of orders with
positive remaining quantity keeps the ladder side well formed. -/
theorem LadderOK.replace_head {side : Side} {p : Int} {queue queue2 : Queue} {l : Ladder}
    (h : LadderOK side ((p, queue) :: l)) (hne : queue2 ≠ [])
    (hpos : ∀ o ∈ queue2, 0 < o._remaining) : LadderOK side ((p, queue2) :: l) := by
  obtain ⟨hs, hn, hp⟩ := h
  refine ⟨hs, ?_, ?_⟩
  · intro lv hl
    rcases List.mem_cons.1 hl with rfl | hl
    · exact hne
    · exact hn lv (List.mem_cons_of_mem _ hl)
  · intro lv hl
    rcases List.mem_cons.1 hl with rfl | hl
    · exact hpos
    · exact hp lv (List.mem_cons_of_mem _ hl)

theorem matchStep_ladderOK (side : Side) (cross : Int → Bool) (s next : MatchState)
    (hs : LadderOK side s.contra) (h : matchStep cross s = some next) :
    LadderOK side next.contra := by
  obtain ⟨-, p, queue, levels, hc, -, hcase⟩ := matchStep_cases cross s next h
  rw [hc] at hs
  rcases hcase with ⟨-, rfl⟩ | ⟨front, others, hq, -, rfl⟩ | ⟨front, others, hq, hlt, rfl⟩
  · exact hs.tail
  · subst hq
    by_cases ho : others = []
    · simp only [ho, if_true]
      exact hs.tail
    · simp only [ho, if_false]
      exact hs.replace_head ho
        (fun o hmem => hs.2.2 _ (List.mem_cons_self _ _) o (List.mem_cons_of_mem _ hmem))
  · subst hq
    refine hs.replace_head (List.cons_ne_nil _ _) ?_
    intro o hmem
    rcases List.mem_cons.1 hmem with rfl | hmem
    · simp only
      omega
    · exact hs.2.2 _ (List.mem_cons_self _ _) o (List.mem_cons_of_mem _ hmem)

theorem matchStep_indexed (side : Side) (others0 : List (Nat × Locator)) (cross : Int → Bool)
    (s next : MatchState)
    (hs : Indexed s.index (ladderEntries side s.contra ++ others0))
    (h : matchStep cross s = some next) :
    Indexed next.index (ladderEntries side next.contra ++ others0) := by
  obtain ⟨-, p, queue, levels, hc, -, hcase⟩ := matchStep_cases cross s next h
  rw [hc] at hs
  rcases hcase with ⟨hq, rfl⟩ | ⟨front, others, hq, -, rfl⟩ | ⟨front, others, hq, hlt, rfl⟩
  · subst hq
    simpa [ladderEntries_cons] using hs
  · subst hq
    have hent : ladderEntries side (if others = [] then levels else (p, others) :: levels) =
        ladderEntries side ((p, others) :: levels) := by
      by_cases ho : others = []
      · simp [ho, ladderEntries_cons]
      · simp [ho]
    simp only [hent]
    rw [ladderEntries_cons, List.map_cons, List.cons_append, List.cons_append] at hs
    rw [ladderEntries_cons]
    exact hs.erase_head
  · subst hq
    simpa [ladderEntries_cons] using hs

theorem matchStep_fresh (cross : Int → Bool) (orderId : Nat) (s next : MatchState)
    (hs : locatorFind s.index orderId = none) (h : matchStep cross s = some next) :
    locatorFind next.index orderId = none := by
  obtain ⟨-, p, queue, levels, -, -, hcase⟩ := matchStep_cases cross s next h
  rcases hcase with ⟨-, rfl⟩ | ⟨front, others, -, -, rfl⟩ | ⟨front, others, -, -, rfl⟩
  · exact hs
  · simp only [locatorFind_erase, hs]
    split <;> rfl
  · exact hs

/-! ### Resting an order -/

theorem mem_prices_restAt (side : Side) (price : Int) (o : RestingOrder) (l : Ladder) (x : Int) :
    x ∈ prices (restAt side price o l) ↔ x = price ∨ x ∈ prices l := by
  induction l with
  | nil => simp [restAt, prices]
  | cons level rest ih =>
    obtain ⟨p, queue⟩ := level
    unfold restAt
    by_cases hp : p = price
    · subst hp
      simp [prices]
    · rw [if_neg hp]
      by_cases hb : better side price p = true
      · rw [if_pos hb]
        simp [prices]
      · rw [if_neg hb]
        unfold prices at ih ⊢
        rw [List.map_cons, List.mem_cons, ih, List.map_cons, List.mem_cons]
        tauto

theorem restAt_sorted (side : Side) (price : Int) (o : RestingOrder) (l : Ladder)
    (h : SortedLadder side l) : SortedLadder side (restAt side price o l) := by
  induction l with
  | nil => simp [restAt, SortedLadder, prices]
  | cons level rest ih =>
    obtain ⟨p, queue⟩ := level
    have hcons : (∀ x ∈ prices rest, better side p x = true) ∧ SortedLadder side rest := by
      unfold SortedLadder prices at h
      rw [List.map_cons] at h
      exact List.pairwise_cons.1 h
    unfold restAt
    by_cases hp : p = price
    · rw [if_pos hp]
      exact h
    · rw [if_neg hp]
      by_cases hb : better side price p = true
      · rw [if_pos hb]
        unfold SortedLadder prices
        rw [List.map_cons]
        refine List.pairwise_cons.2 ⟨?_, h⟩
        intro x hx
        rw [List.map_cons, List.mem_cons] at hx
        rcases hx with rfl | hx
        · exact hb
        · exact better_trans side hb (hcons.1 x hx)
      · rw [if_neg hb]
        have hb2 : better side price p = false := by
          cases hv : better side price p with
          | true => exact absurd hv hb
          | false => rfl
        unfold SortedLadder prices
        rw [List.map_cons]
        refine List.pairwise_cons.2 ⟨?_, ih hcons.2⟩
        intro x hx
        rcases (mem_prices_restAt side price o rest x).1 hx with rfl | hx
        · exact better_of_not side (fun e => hp e.symm) hb2
        · exact hcons.1 x hx

theorem restAt_levels (side : Side) (price : Int) (o : RestingOrder) (l : Ladder)
    (level : Int × Queue) (h : level ∈ restAt side price o l) :
    level ∈ l ∨ level = (price, [o]) ∨ ∃ queue, (price, queue) ∈ l ∧ level = (price, queue ++ [o]) := by
  induction l with
  | nil =>
    simp only [restAt, List.mem_singleton] at h
    exact Or.inr (Or.inl h)
  | cons head rest ih =>
    obtain ⟨p, queue⟩ := head
    unfold restAt at h
    by_cases hp : p = price
    · rw [if_pos hp] at h
      subst hp
      rcases List.mem_cons.1 h with rfl | h
      · exact Or.inr (Or.inr ⟨queue, List.mem_cons_self _ _, rfl⟩)
      · exact Or.inl (List.mem_cons_of_mem _ h)
    · rw [if_neg hp] at h
      by_cases hb : better side price p = true
      · rw [if_pos hb] at h
        rcases List.mem_cons.1 h with rfl | h
        · exact Or.inr (Or.inl rfl)
        · exact Or.inl h
      · rw [if_neg hb] at h
        rcases List.mem_cons.1 h with rfl | h
        · exact Or.inl (List.mem_cons_self _ _)
        · rcases ih h with h | h | ⟨q2, hq, hl⟩
          · exact Or.inl (List.mem_cons_of_mem _ h)
          · exact Or.inr (Or.inl h)
          · exact Or.inr (Or.inr ⟨q2, List.mem_cons_of_mem _ hq, hl⟩)

theorem restAt_ladderOK (side : Side) (price : Int) (o : RestingOrder) (l : Ladder)
    (h : LadderOK side l) (ho : 0 < o._remaining) : LadderOK side (restAt side price o l) := by
  obtain ⟨hs, hn, hp⟩ := h
  refine ⟨restAt_sorted side price o l hs, ?_, ?_⟩
  · intro level hl
    rcases restAt_levels side price o l level hl with h | rfl | ⟨queue, -, rfl⟩
    · exact hn level h
    · exact List.cons_ne_nil _ _
    · simp
  · intro level hl x hx
    rcases restAt_levels side price o l level hl with h | rfl | ⟨queue, hq, rfl⟩
    · exact hp level h x hx
    · rw [List.mem_singleton] at hx
      rw [hx]
      exact ho
    · rcases List.mem_append.1 hx with hx | hx
      · exact hp _ hq x hx
      · rw [List.mem_singleton] at hx
        rw [hx]
        exact ho

theorem restAt_entries (side : Side) (price : Int) (o : RestingOrder) (l : Ladder) :
    (ladderEntries side (restAt side price o l)).Perm
      ((o._orderId, { side := side, price := price }) :: ladderEntries side l) := by
  induction l with
  | nil => simp [restAt, ladderEntries]
  | cons head rest ih =>
    obtain ⟨p, queue⟩ := head
    unfold restAt
    by_cases hp : p = price
    · rw [if_pos hp]
      subst hp
      rw [ladderEntries_cons, ladderEntries_cons, List.map_append, List.map_cons, List.map_nil,
        List.append_assoc]
      exact (List.perm_middle).trans (List.Perm.refl _)
    · rw [if_neg hp]
      by_cases hb : better side price p = true
      · rw [if_pos hb, ladderEntries_cons]
        simp
      · rw [if_neg hb, ladderEntries_cons, ladderEntries_cons]
        exact (List.Perm.append_left _ ih).trans List.perm_middle

/-! ### Removing an order -/

theorem eraseOrder_subset (orderId : Nat) (queue : Queue) (o : RestingOrder)
    (h : o ∈ eraseOrder orderId queue) : o ∈ queue := by
  induction queue with
  | nil => exact h
  | cons head rest ih =>
    unfold eraseOrder at h
    by_cases hid : head._orderId = orderId
    · rw [if_pos hid] at h
      exact List.mem_cons_of_mem _ h
    · rw [if_neg hid] at h
      rcases List.mem_cons.1 h with rfl | h
      · exact List.mem_cons_self _ _
      · exact List.mem_cons_of_mem _ (ih h)

theorem eraseOrder_entries (orderId : Nat) (loc : Locator) (queue : Queue)
    (h : ∃ o ∈ queue, o._orderId = orderId) :
    (queue.map (fun o => (o._orderId, loc))).Perm
      ((orderId, loc) :: (eraseOrder orderId queue).map (fun o => (o._orderId, loc))) := by
  induction queue with
  | nil =>
    obtain ⟨o, ho, -⟩ := h
    exact absurd ho (List.not_mem_nil _)
  | cons head rest ih =>
    unfold eraseOrder
    by_cases hid : head._orderId = orderId
    · rw [if_pos hid, List.map_cons, hid]
    · rw [if_neg hid, List.map_cons, List.map_cons]
      have hrest : ∃ o ∈ rest, o._orderId = orderId := by
        obtain ⟨o, ho, hoid⟩ := h
        rcases List.mem_cons.1 ho with rfl | ho
        · exact absurd hoid hid
        · exact ⟨o, ho, hoid⟩
      exact ((ih hrest).cons _).trans (List.Perm.swap _ _ _)

theorem removeAt_levels (price : Int) (orderId : Nat) (l : Ladder) (level : Int × Queue)
    (h : level ∈ removeAt price orderId l) :
    level ∈ l ∨ ∃ queue, (price, queue) ∈ l ∧ eraseOrder orderId queue ≠ [] ∧
      level = (price, eraseOrder orderId queue) := by
  induction l with
  | nil => exact absurd h (List.not_mem_nil _)
  | cons head rest ih =>
    obtain ⟨p, queue⟩ := head
    unfold removeAt at h
    by_cases hp : p = price
    · rw [if_pos hp] at h
      subst hp
      by_cases he : eraseOrder orderId queue = []
      · rw [if_pos he] at h
        exact Or.inl (List.mem_cons_of_mem _ h)
      · rw [if_neg he] at h
        rcases List.mem_cons.1 h with rfl | h
        · exact Or.inr ⟨queue, List.mem_cons_self _ _, he, rfl⟩
        · exact Or.inl (List.mem_cons_of_mem _ h)
    · rw [if_neg hp] at h
      rcases List.mem_cons.1 h with rfl | h
      · exact Or.inl (List.mem_cons_self _ _)
      · rcases ih h with h | ⟨q2, hq, hne, hl⟩
        · exact Or.inl (List.mem_cons_of_mem _ h)
        · exact Or.inr ⟨q2, List.mem_cons_of_mem _ hq, hne, hl⟩

theorem removeAt_prices_sublist (price : Int) (orderId : Nat) (l : Ladder) :
    (prices (removeAt price orderId l)).Sublist (prices l) := by
  induction l with
  | nil => exact List.Sublist.refl _
  | cons head rest ih =>
    obtain ⟨p, queue⟩ := head
    unfold removeAt
    by_cases hp : p = price
    · rw [if_pos hp]
      by_cases he : eraseOrder orderId queue = []
      · rw [if_pos he]
        exact List.sublist_cons_self _ _
      · rw [if_neg he]
        exact List.Sublist.refl _
    · rw [if_neg hp]
      unfold prices at ih ⊢
      rw [List.map_cons, List.map_cons]
      exact ih.cons₂ _

theorem removeAt_sorted (side : Side) (price : Int) (orderId : Nat) (l : Ladder)
    (h : SortedLadder side l) : SortedLadder side (removeAt price orderId l) :=
  List.Pairwise.sublist (removeAt_prices_sublist price orderId l) h

theorem removeAt_ladderOK (side : Side) (price : Int) (orderId : Nat) (l : Ladder)
    (h : LadderOK side l) : LadderOK side (removeAt price orderId l) := by
  obtain ⟨hs, hn, hp⟩ := h
  refine ⟨removeAt_sorted side price orderId l hs, ?_, ?_⟩
  · intro level hl
    rcases removeAt_levels price orderId l level hl with h | ⟨queue, -, hne, rfl⟩
    · exact hn level h
    · exact hne
  · intro level hl x hx
    rcases removeAt_levels price orderId l level hl with h | ⟨queue, hq, -, rfl⟩
    · exact hp level h x hx
    · exact hp _ hq x (eraseOrder_subset orderId queue x hx)

theorem SortedLadder.nodup {side : Side} {l : Ladder} (h : SortedLadder side l) :
    (prices l).Nodup :=
  List.Pairwise.imp (fun hab => better_ne side hab) h

theorem removeAt_entries (side : Side) (price : Int) (orderId : Nat) (l : Ladder)
    (hnd : (prices l).Nodup)
    (h : (orderId, ({ side := side, price := price } : Locator)) ∈ ladderEntries side l) :
    (ladderEntries side l).Perm
      ((orderId, { side := side, price := price }) ::
        ladderEntries side (removeAt price orderId l)) := by
  induction l with
  | nil => exact absurd h (List.not_mem_nil _)
  | cons head rest ih =>
    obtain ⟨p, queue⟩ := head
    unfold prices at hnd
    rw [List.map_cons, List.nodup_cons] at hnd
    rw [ladderEntries_cons, List.mem_append] at h
    unfold removeAt
    by_cases hp : p = price
    · rw [if_pos hp]
      subst hp
      have hq : ∃ o ∈ queue, o._orderId = orderId := by
        rcases h with h | h
        · obtain ⟨o, ho, heq⟩ := List.mem_map.1 h
          simp only [Prod.mk.injEq] at heq
          exact ⟨o, ho, heq.1⟩
        · exact absurd (ladderEntries_price_mem side rest orderId _ h).2 hnd.1
      have hperm := eraseOrder_entries orderId { side := side, price := p } queue hq
      by_cases he : eraseOrder orderId queue = []
      · rw [if_pos he, ladderEntries_cons]
        rw [he] at hperm
        simpa using hperm.append_right (ladderEntries side rest)
      · rw [if_neg he, ladderEntries_cons, ladderEntries_cons]
        simpa using hperm.append_right (ladderEntries side rest)
    · rw [if_neg hp]
      have hrest : (orderId, ({ side := side, price := price } : Locator)) ∈
          ladderEntries side rest := by
        rcases h with h | h
        · obtain ⟨o, ho, heq⟩ := List.mem_map.1 h
          simp only [Prod.mk.injEq, Locator.mk.injEq, true_and] at heq
          exact absurd heq.2 hp
        · exact h
      rw [ladderEntries_cons, ladderEntries_cons]
      exact (List.Perm.append_left _ (ih hnd.2 hrest)).trans List.perm_middle

/-! ### The matching loop on a well-formed book -/

theorem matchIncoming_ladderOK (b : SimplePriceTimeBook) (side : Side) (limit : Option Int)
    (quantity : Nat) (h : LadderOK (opposite side) (b.ladder (opposite side))) :
    LadderOK (opposite side) (matchIncoming b side limit quantity).contra := by
  unfold matchIncoming
  exact matchLoop_invariant (crosses side limit) (fun s => LadderOK (opposite side) s.contra)
    (fun s next hs hstep => matchStep_ladderOK (opposite side) _ s next hs hstep) _ _ h

theorem matchIncoming_indexed (b : SimplePriceTimeBook) (side : Side) (limit : Option Int)
    (quantity : Nat) (others0 : List (Nat × Locator))
    (h : Indexed b._liveOrders (ladderEntries (opposite side) (b.ladder (opposite side)) ++ others0)) :
    Indexed (matchIncoming b side limit quantity).index
      (ladderEntries (opposite side) (matchIncoming b side limit quantity).contra ++ others0) := by
  unfold matchIncoming
  exact matchLoop_invariant (crosses side limit)
    (fun s => Indexed s.index (ladderEntries (opposite side) s.contra ++ others0))
    (fun s next hs hstep => matchStep_indexed (opposite side) others0 _ s next hs hstep) _ _ h

theorem matchIncoming_fresh (b : SimplePriceTimeBook) (side : Side) (limit : Option Int)
    (quantity orderId : Nat) (h : locatorFind b._liveOrders orderId = none) :
    locatorFind (matchIncoming b side limit quantity).index orderId = none := by
  unfold matchIncoming
  exact matchLoop_invariant (crosses side limit) (fun s => locatorFind s.index orderId = none)
    (fun s next hs hstep => matchStep_fresh _ orderId s next hs hstep) _ _ h

/-- The book after the matching loop, before any remainder rests. -/
theorem matched_wellFormed (b : SimplePriceTimeBook) (side : Side) (limit : Option Int)
    (quantity : Nat) (h : WellFormed b) :
    WellFormed
      { b.withLadder (opposite side) (matchIncoming b side limit quantity).contra with
        _liveOrders := (matchIncoming b side limit quantity).index } := by
  obtain ⟨hl, hi⟩ := h
  have hc := matchIncoming_ladderOK b side limit quantity (hl (opposite side))
  cases side with
  | BID =>
    have hidx := matchIncoming_indexed b Side.BID limit quantity
      (ladderEntries Side.BID b._bids) (hi.perm List.perm_append_comm)
    refine ⟨fun s => ?_, ?_⟩
    · cases s with
      | BID => exact hl Side.BID
      | ASK => exact hc
    · exact hidx.perm List.perm_append_comm
  | ASK =>
    have hidx := matchIncoming_indexed b Side.ASK limit quantity
      (ladderEntries Side.ASK b._asks) hi
    refine ⟨fun s => ?_, ?_⟩
    · cases s with
      | BID => exact hc
      | ASK => exact hl Side.ASK
    · exact hidx

/-- Resting a fresh order on its own side keeps the book well formed. -/
theorem rest_wellFormed (b : SimplePriceTimeBook) (side : Side) (price : Int)
    (o : RestingOrder) (next : Nat) (h : WellFormed b) (ho : 0 < o._remaining)
    (hfresh : locatorFind b._liveOrders o._orderId = none) :
    WellFormed
      { b.withLadder side (restAt side price o (b.ladder side)) with
        _liveOrders := locatorInsert b._liveOrders o._orderId { side := side, price := price }
        _nextSequence := next } := by
  obtain ⟨hl, hi⟩ := h
  have hr := restAt_ladderOK side price o (b.ladder side) (hl side) ho
  have hins := @Indexed.insert_head _ _ { side := side, price := price } _ hi hfresh
  cases side with
  | BID =>
    refine ⟨fun s => ?_, ?_⟩
    · cases s with
      | BID => exact hr
      | ASK => exact hl Side.ASK
    · refine hins.perm ?_
      exact ((restAt_entries Side.BID price o b._bids).append_right _).symm
  | ASK =>
    refine ⟨fun s => ?_, ?_⟩
    · cases s with
      | BID => exact hl Side.BID
      | ASK => exact hr
    · refine hins.perm ?_
      exact (List.perm_middle.symm).trans
        ((restAt_entries Side.ASK price o b._asks).append_left _).symm

theorem addOrder_wellFormed (b : SimplePriceTimeBook) (side : Side) (limit : Option Int)
    (orderId quantity : Nat) (h : WellFormed b)
    (hfresh : locatorFind b._liveOrders orderId = none) :
    WellFormed (addOrder b side limit orderId quantity) := by
  have hm := matched_wellFormed b side limit quantity h
  have hf := matchIncoming_fresh b side limit quantity orderId hfresh
  unfold addOrder
  cases limit with
  | none => exact hm
  | some price =>
    simp only
    by_cases hrem : 0 < (matchIncoming b side (some price) quantity).remaining
    · rw [if_pos hrem]
      exact rest_wellFormed _ side price
        { _orderId := orderId, _remaining := (matchIncoming b side (some price) quantity).remaining,
          _timestamp := _ } _ hm hrem hf
    · rw [if_neg hrem]
      exact hm

theorem Indexed.remove {index : LocatorIndex} {k : Nat} {loc : Locator}
    {e1 e2 : List (Nat × Locator)} (h : Indexed index e1) (hp : e1.Perm ((k, loc) :: e2)) :
    Indexed (locatorErase index k) e2 :=
  (h.perm hp).erase_head

theorem cancel_wellFormed (b : SimplePriceTimeBook) (orderId : Nat) (h : WellFormed b) :
    WellFormed (b.cancel orderId).2 := by
  unfold SimplePriceTimeBook.cancel
  cases hf : locatorFind b._liveOrders orderId with
  | none => exact h
  | some loc =>
    obtain ⟨hl, hi⟩ := h
    have hmem : (orderId, loc) ∈ bookEntries b := (hi.2 orderId loc).1 hf
    obtain ⟨side, price⟩ := loc
    have hr := removeAt_ladderOK side price orderId (b.ladder side) (hl side)
    unfold bookEntries at hmem
    rw [List.mem_append] at hmem
    cases side with
    | BID =>
      have hin : (orderId, ({ side := Side.BID, price := price } : Locator)) ∈
          ladderEntries Side.BID b._bids := by
        rcases hmem with hmem | hmem
        · exact hmem
        · exact absurd (ladderEntries_price_mem Side.ASK _ _ _ hmem).1 (fun e => Side.noConfusion e)
      have hperm := removeAt_entries Side.BID price orderId b._bids (hl Side.BID).1.nodup hin
      refine ⟨fun s => ?_, ?_⟩
      · cases s with
        | BID => exact hr
        | ASK => exact hl Side.ASK
      · exact hi.remove (hperm.append_right _)
    | ASK =>
      have hin : (orderId, ({ side := Side.ASK, price := price } : Locator)) ∈
          ladderEntries Side.ASK b._asks := by
        rcases hmem with hmem | hmem
        · exact absurd (ladderEntries_price_mem Side.BID _ _ _ hmem).1 (fun e => Side.noConfusion e)
        · exact hmem
      have hperm := removeAt_entries Side.ASK price orderId b._asks (hl Side.ASK).1.nodup hin
      refine ⟨fun s => ?_, ?_⟩
      · cases s with
        | BID => exact hl Side.BID
        | ASK => exact hr
      · exact hi.remove ((hperm.append_left _).trans List.perm_middle)

theorem empty_wellFormed : WellFormed SimplePriceTimeBook.empty :=
  ⟨fun side => by cases side <;> exact LadderOK.nil _,
    ⟨List.nodup_nil, fun orderId loc => by simp [SimplePriceTimeBook.empty, bookEntries,
      ladderEntries, locatorFind]⟩⟩

theorem step_wellFormed (b : SimplePriceTimeBook) (op : Op) (h : WellFormed b)
    (hv : validOp b op = true) : WellFormed (step b op) := by
  cases op with
  | addMarketBuy orderId quantity =>
    simp only [validOp, Bool.and_eq_true, Option.isNone_iff_eq_none] at hv
    exact addOrder_wellFormed b Side.BID none orderId quantity h hv.2
  | addMarketSell orderId quantity =>
    simp only [validOp, Bool.and_eq_true, Option.isNone_iff_eq_none] at hv
    exact addOrder_wellFormed b Side.ASK none orderId quantity h hv.2
  | addLimitBuy orderId priceT quantity =>
    simp only [validOp, Bool.and_eq_true, Option.isNone_iff_eq_none] at hv
    exact addOrder_wellFormed b Side.BID (some priceT) orderId quantity h hv.2
  | addLimitSell orderId priceT quantity =>
    simp only [validOp, Bool.and_eq_true, Option.isNone_iff_eq_none] at hv
    exact addOrder_wellFormed b Side.ASK (some priceT) orderId quantity h hv.2
  | cancel orderId => exact cancel_wellFormed b orderId h

theorem run_wellFormed (ops : List Op) :
    ∀ b : SimplePriceTimeBook, WellFormed b → validRun b ops = true → WellFormed (run b ops) := by
  induction ops with
  | nil => intro b h _; exact h
  | cons op ops ih =>
    intro b h hv
    simp only [validRun, Bool.and_eq_true] at hv
    exact ih (step b op) (step_wellFormed b op h hv.1) hv.2

/-! ### Executions follow the priority order -/

theorem priorityOrder_cons (p : Int) (queue : Queue) (l : Ladder) :
    priorityOrder ((p, queue) :: l) = queue.map (fun o => (p, o)) ++ priorityOrder l := by
  simp [priorityOrder]

theorem priorityOrder_append (l1 l2 : Ladder) :
    priorityOrder (l1 ++ l2) = priorityOrder l1 ++ priorityOrder l2 := by
  simp [priorityOrder]

theorem ladderEntries_ids (side : Side) (l : Ladder) :
    (ladderEntries side l).map (fun e => e.1) =
      (priorityOrder l).map (fun x => x.2._orderId) := by
  induction l with
  | nil => rfl
  | cons level rest ih =>
    obtain ⟨p, queue⟩ := level
    rw [ladderEntries_cons, priorityOrder_cons, List.map_append, List.map_append, ih]
    simp

theorem matchStep_trace (start : Ladder) (cross : Int → Bool) (s next : MatchState)
    (hs : Trace start s) (h : matchStep cross s = some next) : Trace start next := by
  obtain ⟨hrem, p, queue, levels, hc, -, hcase⟩ := matchStep_cases cross s next h
  obtain ⟨served, waiting, hsplit, hA | hB⟩ := hs
  · obtain ⟨hfills, hwait⟩ := hA
    rw [hc] at hwait
    rcases hcase with ⟨hq, rfl⟩ | ⟨front, others, hq, -, rfl⟩ | ⟨front, others, hq, hlt, rfl⟩
    · subst hq
      refine ⟨served, waiting, hsplit, Or.inl ⟨hfills, ?_⟩⟩
      simpa [priorityOrder_cons] using hwait
    · subst hq
      have hent : priorityOrder (if others = [] then levels else (p, others) :: levels) =
          priorityOrder ((p, others) :: levels) := by
        by_cases ho : others = []
        · simp [ho, priorityOrder_cons]
        · simp [ho]
      rw [priorityOrder_cons, List.map_cons, List.cons_append] at hwait
      refine ⟨served ++ [(p, front)], priorityOrder ((p, others) :: levels), ?_, Or.inl ⟨?_, hent⟩⟩
      · rw [hsplit, ← hwait, priorityOrder_cons]
        simp
      · simp only [hfills, List.map_append, List.map_cons, List.map_nil, fullFill]
    · subst hq
      rw [priorityOrder_cons, List.map_cons, List.cons_append] at hwait
      refine ⟨served, waiting, hsplit, Or.inr ⟨p, front, _, s.remaining, hwait.symm, rfl, hlt,
        by simp only [hfills], ?_⟩⟩
      rw [priorityOrder_cons, List.map_cons, List.cons_append]
  · obtain ⟨_, _, _, _, -, hzero, -⟩ := hB
    exact absurd hzero hrem

theorem matchIncoming_trace (b : SimplePriceTimeBook) (side : Side) (limit : Option Int)
    (quantity : Nat) :
    Trace (b.ladder (opposite side)) (matchIncoming b side limit quantity) := by
  unfold matchIncoming
  refine matchLoop_invariant (crosses side limit) (Trace (b.ladder (opposite side)))
    (fun s next hs hstep => matchStep_trace _ _ s next hs hstep) _ _ ?_
  exact ⟨[], priorityOrder (b.ladder (opposite side)), rfl, Or.inl ⟨rfl, rfl⟩⟩

theorem nodup_split_unique {α : Type} (y : α) :
    ∀ (A A2 C C2 : List α), (A ++ y :: C).Nodup → A ++ y :: C = A2 ++ y :: C2 → A = A2 := by
  intro A
  induction A with
  | nil =>
    intro A2 C C2 hnd h
    cases A2 with
    | nil => rfl
    | cons a A3 =>
      rw [List.nil_append, List.cons_append] at h
      injection h with h1 h2
      subst h1
      rw [List.nil_append, List.nodup_cons] at hnd
      exact absurd (h2 ▸ List.mem_append_right _ (List.mem_cons_self _ _)) hnd.1
  | cons a A1 ih =>
    intro A2 C C2 hnd h
    rw [List.cons_append, List.nodup_cons] at hnd
    cases A2 with
    | nil =>
      rw [List.nil_append, List.cons_append] at h
      injection h with h1 h2
      subst h1
      exact absurd (List.mem_append_right _ (List.mem_cons_self _ _)) hnd.1
    | cons a2 A3 =>
      rw [List.cons_append, List.cons_append] at h
      injection h with h1 h2
      rw [h1, ih A3 C C2 hnd.2 h2]

/-- Price-time priority of the executions: when `x` stands before `y` in the
priority order of the contra ladder and `y` takes part in an execution, then
`x` has been filled in full, no execution against `y` comes before that
fill, and `x` is no longer in the contra ladder. -/
theorem trace_priority (start : Ladder) (s : MatchState) (ht : Trace start s)
    (hnd : ((priorityOrder start).map (fun z => z.2._orderId)).Nodup)
    (A B C : List (Int × RestingOrder)) (x y : Int × RestingOrder)
    (hflat : priorityOrder start = A ++ x :: (B ++ y :: C))
    (f : Fill) (hf : f ∈ s.fills) (hfy : f.makerId = y.2._orderId) :
    (∃ F1 F2 : List Fill, s.fills = F1 ++ fullFill x :: F2 ∧
        ∀ g ∈ F1, g.makerId ≠ y.2._orderId) ∧
      x.2._orderId ∉ (priorityOrder s.contra).map (fun z => z.2._orderId) := by
  have hinj := List.inj_on_of_nodup_map hnd
  have hnd2 : (priorityOrder start).Nodup := List.Nodup.of_map _ hnd
  have hy : y ∈ priorityOrder start := by
    rw [hflat]
    exact List.mem_append_right _ (List.mem_cons_of_mem _ (List.mem_append_right _
      (List.mem_cons_self _ _)))
  have hflat2 : priorityOrder start = (A ++ x :: B) ++ y :: C := by
    rw [hflat]
    simp
  obtain ⟨served, waiting, hsplit, hcase⟩ := ht
  -- the executions are full fills of `served` plus at most one against the head of `waiting`
  have hweak : ∃ extra : List Fill, s.fills = served.map fullFill ++ extra ∧
      (priorityOrder s.contra).map (fun z => z.2._orderId) =
        waiting.map (fun z => z.2._orderId) ∧
      ∀ g ∈ extra, ∃ w tail, waiting = w :: tail ∧ g.makerId = w.2._orderId := by
    rcases hcase with ⟨hfills, hwait⟩ | ⟨p, o, tail, q, hw, -, -, hfills, hwait⟩
    · exact ⟨[], by simp [hfills], by rw [hwait], fun g hg => absurd hg (List.not_mem_nil _)⟩
    · refine ⟨_, hfills, by rw [hwait, hw]; simp, fun g hg => ?_⟩
      rw [List.mem_singleton] at hg
      exact ⟨(p, o), tail, hw, by rw [hg]⟩
  obtain ⟨extra, hfills, hids, hextra⟩ := hweak
  -- `served` reaches beyond `x`
  have hserved : ∃ B2, served = A ++ x :: B2 := by
    rw [hfills, List.mem_append] at hf
    rcases hf with hf | hf
    · obtain ⟨z, hz, hzf⟩ := List.mem_map.1 hf
      have hzy : z = y := by
        apply hinj (hsplit ▸ List.mem_append_left _ hz) hy
        rw [← hfy, ← hzf]
        rfl
      subst hzy
      obtain ⟨T1, T2, hT⟩ := List.append_of_mem hz
      have h1 : T1 ++ z :: (T2 ++ waiting) = (A ++ x :: B) ++ z :: C := by
        rw [← hflat2, hsplit, hT]
        simp
      have h2 : (T1 ++ z :: (T2 ++ waiting)).Nodup := by
        rw [h1, ← hflat2]
        exact hnd2
      have h3 := nodup_split_unique z _ _ _ _ h2 h1
      exact ⟨B ++ z :: T2, by rw [hT, h3]; simp⟩
    · obtain ⟨w, tail, hw, hgw⟩ := hextra f hf
      have hwy : w = y := by
        apply hinj (hsplit ▸ List.mem_append_right _ (hw ▸ List.mem_cons_self _ _)) hy
        rw [← hfy, ← hgw]
      subst hwy
      have h1 : served ++ w :: tail = (A ++ x :: B) ++ w :: C := by
        rw [← hflat2, hsplit, hw]
      have h2 : (served ++ w :: tail).Nodup := by
        rw [h1, ← hflat2]
        exact hnd2
      have h3 := nodup_split_unique w _ _ _ _ h2 h1
      exact ⟨B, by rw [h3]⟩
  obtain ⟨B2, hB2⟩ := hserved
  refine ⟨⟨A.map fullFill, B2.map fullFill ++ extra, ?_, ?_⟩, ?_⟩
  · rw [hfills, hB2]
    simp
  · intro g hg hgy
    obtain ⟨a, ha, hag⟩ := List.mem_map.1 hg
    have hay : a = y := by
      apply hinj (hflat ▸ List.mem_append_left _ ha) hy
      rw [← hgy, ← hag]
      rfl
    subst hay
    rw [hflat] at hnd2
    have := List.disjoint_of_nodup_append hnd2
    exact this ha (List.mem_cons_of_mem _ (List.mem_append_right _ (List.mem_cons_self _ _)))
  · rw [hids]
    intro hx
    obtain ⟨w, hw, hwx⟩ := List.mem_map.1 hx
    have hxs : x ∈ served := by
      rw [hB2]
      exact List.mem_append_right _ (List.mem_cons_self _ _)
    have hwx2 : w = x :=
      hinj (hsplit ▸ List.mem_append_right _ hw) (hsplit ▸ List.mem_append_left _ hxs) hwx
    subst hwx2
    rw [hsplit] at hnd2
    exact List.disjoint_of_nodup_append hnd2 hxs hw

/-! ### Ladder order needs no assumption on the arguments -/

theorem addOrder_ladderOK (b : SimplePriceTimeBook) (side : Side) (limit : Option Int)
    (orderId quantity : Nat) (h : ∀ s : Side, LadderOK s (b.ladder s)) :
    ∀ s : Side, LadderOK s ((addOrder b side limit orderId quantity).ladder s) := by
  have hc := matchIncoming_ladderOK b side limit quantity (h (opposite side))
  have hm : ∀ s : Side, LadderOK s
      (({ b.withLadder (opposite side) (matchIncoming b side limit quantity).contra with
          _liveOrders := (matchIncoming b side limit quantity).index } :
            SimplePriceTimeBook).ladder s) := by
    intro s
    cases side <;> cases s
    · exact h Side.BID
    · exact hc
    · exact hc
    · exact h Side.ASK
  unfold addOrder
  cases limit with
  | none => exact hm
  | some price =>
    simp only
    by_cases hrem : 0 < (matchIncoming b side (some price) quantity).remaining
    · rw [if_pos hrem]
      have hr := restAt_ladderOK side price
        { _orderId := orderId, _remaining := (matchIncoming b side (some price) quantity).remaining,
          _timestamp := b._nextSequence } _ (hm side) hrem
      intro s
      cases side <;> cases s
      · exact hr
      · exact hm Side.ASK
      · exact hm Side.BID
      · exact hr
    · rw [if_neg hrem]
      exact hm

theorem cancel_ladderOK (b : SimplePriceTimeBook) (orderId : Nat)
    (h : ∀ s : Side, LadderOK s (b.ladder s)) :
    ∀ s : Side, LadderOK s ((b.cancel orderId).2.ladder s) := by
  unfold SimplePriceTimeBook.cancel
  cases hf : locatorFind b._liveOrders orderId with
  | none => exact h
  | some loc =>
    obtain ⟨side, price⟩ := loc
    have hr := removeAt_ladderOK side price orderId (b.ladder side) (h side)
    intro s
    cases side <;> cases s
    · exact hr
    · exact h Side.ASK
    · exact h Side.BID
    · exact hr

theorem step_ladderOK (b : SimplePriceTimeBook) (op : Op)
    (h : ∀ s : Side, LadderOK s (b.ladder s)) : ∀ s : Side, LadderOK s ((step b op).ladder s) := by
  cases op with
  | addMarketBuy orderId quantity => exact addOrder_ladderOK b Side.BID none orderId quantity h
  | addMarketSell orderId quantity => exact addOrder_ladderOK b Side.ASK none orderId quantity h
  | addLimitBuy orderId priceT quantity =>
    exact addOrder_ladderOK b Side.BID (some priceT) orderId quantity h
  | addLimitSell orderId priceT quantity =>
    exact addOrder_ladderOK b Side.ASK (some priceT) orderId quantity h
  | cancel orderId => exact cancel_ladderOK b orderId h

theorem run_ladderOK (ops : List Op) :
    ∀ b : SimplePriceTimeBook, (∀ s : Side, LadderOK s (b.ladder s)) →
      ∀ s : Side, LadderOK s ((run b ops).ladder s) := by
  induction ops with
  | nil => intro b h; exact h
  | cons op ops ih =>
    intro b h
    exact ih (step b op) (step_ladderOK b op h)

theorem reachable_ladderOK (ops : List Op) (s : Side) :
    LadderOK s ((run SimplePriceTimeBook.empty ops).ladder s) :=
  run_ladderOK ops SimplePriceTimeBook.empty (fun s => by cases s <;> exact LadderOK.nil _) s

theorem sorted_head_best (side : Side) (first : Int × Queue) (rest : Ladder)
    (h : SortedLadder side (first :: rest)) (level : Int × Queue) (hl : level ∈ rest) :
    better side first.1 level.1 = true := by
  unfold SortedLadder prices at h
  rw [List.map_cons] at h
  exact (List.pairwise_cons.1 h).1 level.1 (List.mem_map_of_mem (fun lv => lv.1) hl)

/-- C6: in every state of the book the bid ladder is iterated in strictly
descending and the ask ladder in strictly ascending price order (distinct
prices, best first), so the first bid price is at least every other bid
price and the first ask price at most every other ask price. -/
theorem C6_ladder_best_first (ops : List Op) :
    (prices (run SimplePriceTimeBook.empty ops)._bids).Pairwise (fun a b => a > b) ∧
    (prices (run SimplePriceTimeBook.empty ops)._asks).Pairwise (fun a b => a < b) ∧
    (∀ (first : Int × Queue) (rest : Ladder),
      (run SimplePriceTimeBook.empty ops)._bids = first :: rest →
        ∀ level ∈ rest, first.1 ≥ level.1) ∧
    (∀ (first : Int × Queue) (rest : Ladder),
      (run SimplePriceTimeBook.empty ops)._asks = first :: rest →
        ∀ level ∈ rest, first.1 ≤ level.1) := by
  have hb := (reachable_ladderOK ops Side.BID).1
  have ha := (reachable_ladderOK ops Side.ASK).1
  simp only [SimplePriceTimeBook.ladder] at hb ha
  refine ⟨?_, ?_, ?_, ?_⟩
  · refine List.Pairwise.imp ?_ hb
    intro x y hxy
    simpa [better] using hxy
  · refine List.Pairwise.imp ?_ ha
    intro x y hxy
    simpa [better] using hxy
  · intro first rest heq level hl
    rw [heq] at hb
    have := sorted_head_best Side.BID first rest hb level hl
    simp only [better, decide_eq_true_eq] at this
    omega
  · intro first rest heq level hl
    rw [heq] at ha
    have := sorted_head_best Side.ASK first rest ha level hl
    simp only [better, decide_eq_true_eq] at this
    omega

/-- C6, on the book holding bids at 100, 101, 99 and asks at 105, 103. -/
theorem C6_ladder_best_first_witness :
    (run SimplePriceTimeBook.empty
        [Op.addLimitBuy 1 100 10, Op.addLimitBuy 2 101 5, Op.addLimitBuy 3 99 1,
          Op.addLimitSell 4 105 2, Op.addLimitSell 5 103 2])._bids =
      (101, [⟨2, 5, 1⟩]) :: [(100, [⟨1, 10, 0⟩]), (99, [⟨3, 1, 2⟩])] ∧
    ∀ level ∈ [((100 : Int), ([⟨1, 10, 0⟩] : Queue)), (99, [⟨3, 1, 2⟩])],
      (101 : Int) ≥ level.1 :=
  ⟨by decide,
    (C6_ladder_best_first
      [Op.addLimitBuy 1 100 10, Op.addLimitBuy 2 101 5, Op.addLimitBuy 3 99 1,
        Op.addLimitSell 4 105 2, Op.addLimitSell 5 103 2]).2.2.1
      (101, [⟨2, 5, 1⟩]) [(100, [⟨1, 10, 0⟩]), (99, [⟨3, 1, 2⟩])] (by decide)⟩

/-! ### One index entry per order id -/

theorem locatorErase_keys_nodup (index : LocatorIndex) (k : Nat)
    (h : (index.map (fun e => e.1)).Nodup) :
    ((locatorErase index k).map (fun e => e.1)).Nodup :=
  List.Nodup.sublist ((List.filter_sublist index).map _) h

theorem locatorErase_not_mem (index : LocatorIndex) (k : Nat) :
    k ∉ (locatorErase index k).map (fun e => e.1) := by
  intro hmem
  obtain ⟨e, he, hk⟩ := List.mem_map.1 hmem
  unfold locatorErase at he
  have := (List.mem_filter.1 he).2
  simp only [ne_eq, decide_not, Bool.not_eq_true', decide_eq_false_iff_not] at this
  exact this hk

theorem locatorInsert_keys_nodup (index : LocatorIndex) (k : Nat) (loc : Locator)
    (h : (index.map (fun e => e.1)).Nodup) :
    ((locatorInsert index k loc).map (fun e => e.1)).Nodup := by
  unfold locatorInsert
  rw [List.map_cons, List.nodup_cons]
  exact ⟨locatorErase_not_mem index k, locatorErase_keys_nodup index k h⟩

theorem matchStep_keys_nodup (cross : Int → Bool) (s next : MatchState)
    (hs : (s.index.map (fun e => e.1)).Nodup) (h : matchStep cross s = some next) :
    (next.index.map (fun e => e.1)).Nodup := by
  obtain ⟨-, p, queue, levels, -, -, hcase⟩ := matchStep_cases cross s next h
  rcases hcase with ⟨-, rfl⟩ | ⟨front, others, -, -, rfl⟩ | ⟨front, others, -, -, rfl⟩
  · exact hs
  · exact locatorErase_keys_nodup _ _ hs
  · exact hs

theorem addOrder_keys_nodup (b : SimplePriceTimeBook) (side : Side) (limit : Option Int)
    (orderId quantity : Nat) (h : (b._liveOrders.map (fun e => e.1)).Nodup) :
    ((addOrder b side limit orderId quantity)._liveOrders.map (fun e => e.1)).Nodup := by
  have hm : ((matchIncoming b side limit quantity).index.map (fun e => e.1)).Nodup := by
    unfold matchIncoming
    refine matchLoop_invariant (crosses side limit) (fun s => (s.index.map (fun e => e.1)).Nodup)
      (fun s next hs hstep => matchStep_keys_nodup _ s next hs hstep) _ _ ?_
    exact h
  unfold addOrder
  cases limit with
  | none => cases side <;> exact hm
  | some price =>
    simp only
    by_cases hrem : 0 < (matchIncoming b side (some price) quantity).remaining
    · rw [if_pos hrem]
      cases side <;> exact locatorInsert_keys_nodup _ _ _ hm
    · rw [if_neg hrem]
      cases side <;> exact hm

theorem cancel_keys_nodup (b : SimplePriceTimeBook) (orderId : Nat)
    (h : (b._liveOrders.map (fun e => e.1)).Nodup) :
    ((b.cancel orderId).2._liveOrders.map (fun e => e.1)).Nodup := by
  unfold SimplePriceTimeBook.cancel
  cases hf : locatorFind b._liveOrders orderId with
  | none => exact h
  | some loc =>
    obtain ⟨side, price⟩ := loc
    cases side <;> exact locatorErase_keys_nodup _ _ h

theorem step_keys_nodup (b : SimplePriceTimeBook) (op : Op)
    (h : (b._liveOrders.map (fun e => e.1)).Nodup) :
    ((step b op)._liveOrders.map (fun e => e.1)).Nodup := by
  cases op with
  | addMarketBuy orderId quantity => exact addOrder_keys_nodup b Side.BID none orderId quantity h
  | addMarketSell orderId quantity => exact addOrder_keys_nodup b Side.ASK none orderId quantity h
  | addLimitBuy orderId priceT quantity =>
    exact addOrder_keys_nodup b Side.BID (some priceT) orderId quantity h
  | addLimitSell orderId priceT quantity =>
    exact addOrder_keys_nodup b Side.ASK (some priceT) orderId quantity h
  | cancel orderId => exact cancel_keys_nodup b orderId h

theorem run_keys_nodup (ops : List Op) :
    ∀ b : SimplePriceTimeBook, (b._liveOrders.map (fun e => e.1)).Nodup →
      ((run b ops)._liveOrders.map (fun e => e.1)).Nodup := by
  induction ops with
  | nil => intro b h; exact h
  | cons op ops ih =>
    intro b h
    exact ih (step b op) (step_keys_nodup b op h)

/-! ### Reachable books -/

theorem reachable_wellFormed (ops : List Op)
    (hv : validRun SimplePriceTimeBook.empty ops = true) :
    WellFormed (run SimplePriceTimeBook.empty ops) :=
  run_wellFormed ops SimplePriceTimeBook.empty empty_wellFormed hv

theorem mem_bookEntries (b : SimplePriceTimeBook) (orderId : Nat) (loc : Locator) :
    (orderId, loc) ∈ bookEntries b ↔
      ∃ queue : Queue, (loc.price, queue) ∈ b.ladder loc.side ∧
        ∃ o ∈ queue, o._orderId = orderId := by
  obtain ⟨side, price⟩ := loc
  unfold bookEntries
  rw [List.mem_append, mem_ladderEntries, mem_ladderEntries]
  constructor
  · rintro (⟨p, queue, hmem, hloc, ho⟩ | ⟨p, queue, hmem, hloc, ho⟩)
    · injection hloc with h1 h2
      subst h1 h2
      exact ⟨queue, hmem, ho⟩
    · injection hloc with h1 h2
      subst h1 h2
      exact ⟨queue, hmem, ho⟩
  · rintro ⟨queue, hmem, ho⟩
    cases side with
    | BID => exact Or.inl ⟨price, queue, hmem, rfl, ho⟩
    | ASK => exact Or.inr ⟨price, queue, hmem, rfl, ho⟩

/-- C9: in every state reached from the empty book by calls with valid
arguments, the order ids with a locator entry are exactly the order ids
present in some price-level queue, an id has the entry `loc` exactly when the
queue at `loc.price` on side `loc.side` holds that order, and neither the
index nor the queues hold an id twice. -/
theorem C9_locator_bijection (ops : List Op)
    (hv : validRun SimplePriceTimeBook.empty ops = true) :
    (∀ orderId : Nat,
      orderId ∈ locatorIds (run SimplePriceTimeBook.empty ops) ↔
        orderId ∈ restingIds (run SimplePriceTimeBook.empty ops)) ∧
    (∀ (orderId : Nat) (loc : Locator),
      locatorFind (run SimplePriceTimeBook.empty ops)._liveOrders orderId = some loc ↔
        ∃ queue : Queue,
          (loc.price, queue) ∈ (run SimplePriceTimeBook.empty ops).ladder loc.side ∧
            ∃ o ∈ queue, o._orderId = orderId) ∧
    (locatorIds (run SimplePriceTimeBook.empty ops)).Nodup ∧
    (restingIds (run SimplePriceTimeBook.empty ops)).Nodup := by
  obtain ⟨-, hi⟩ := reachable_wellFormed ops hv
  refine ⟨fun orderId => ?_, fun orderId loc => ?_, ?_, hi.1⟩
  · unfold locatorIds restingIds
    rw [← locatorFind_isSome_iff]
    constructor
    · rintro ⟨loc, hloc⟩
      exact List.mem_map_of_mem (fun e => e.1) ((hi.2 orderId loc).1 hloc)
    · intro hmem
      obtain ⟨e, he, hk⟩ := List.mem_map.1 hmem
      obtain ⟨k, loc⟩ := e
      simp only at hk
      subst hk
      exact ⟨loc, (hi.2 k loc).2 he⟩
  · rw [hi.2, mem_bookEntries]
  · exact run_keys_nodup ops SimplePriceTimeBook.empty List.nodup_nil

/-- C9, on the book after two resting bids, a crossing sell and a cancel. -/
theorem C9_locator_bijection_witness :
    validRun SimplePriceTimeBook.empty
        [Op.addLimitBuy 1 100 10, Op.addLimitBuy 2 101 5, Op.addLimitSell 3 99 8,
          Op.addLimitSell 4 105 2, Op.cancel 4, Op.addMarketBuy 6 1] = true ∧
    (∀ orderId : Nat,
      orderId ∈ locatorIds (run SimplePriceTimeBook.empty
        [Op.addLimitBuy 1 100 10, Op.addLimitBuy 2 101 5, Op.addLimitSell 3 99 8,
          Op.addLimitSell 4 105 2, Op.cancel 4, Op.addMarketBuy 6 1]) ↔
      orderId ∈ restingIds (run SimplePriceTimeBook.empty
        [Op.addLimitBuy 1 100 10, Op.addLimitBuy 2 101 5, Op.addLimitSell 3 99 8,
          Op.addLimitSell 4 105 2, Op.cancel 4, Op.addMarketBuy 6 1])) :=
  ⟨by decide,
    (C9_locator_bijection
      [Op.addLimitBuy 1 100 10, Op.addLimitBuy 2 101 5, Op.addLimitSell 3 99 8,
        Op.addLimitSell 4 105 2, Op.cancel 4, Op.addMarketBuy 6 1] (by decide)).1⟩

/-! ### Price and time priority -/

theorem queue_precedence (l : Ladder) (p : Int) (F M K : Queue) (a c : RestingOrder)
    (h : (p, F ++ a :: (M ++ c :: K)) ∈ l) :
    ∃ A B C : List (Int × RestingOrder),
      priorityOrder l = A ++ (p, a) :: (B ++ (p, c) :: C) := by
  obtain ⟨L1, L2, rfl⟩ := List.append_of_mem h
  refine ⟨priorityOrder L1 ++ F.map (fun o => (p, o)), M.map (fun o => (p, o)),
    K.map (fun o => (p, o)) ++ priorityOrder L2, ?_⟩
  rw [priorityOrder_append, priorityOrder_cons]
  simp

theorem price_precedence (side : Side) (l : Ladder) (hs : SortedLadder side l)
    (p1 p2 : Int) (q1 q2 : Queue) (o1 o2 : RestingOrder)
    (h1 : (p1, q1) ∈ l) (ho1 : o1 ∈ q1) (h2 : (p2, q2) ∈ l) (ho2 : o2 ∈ q2)
    (hb : better side p1 p2 = true) :
    ∃ A B C : List (Int × RestingOrder),
      priorityOrder l = A ++ (p1, o1) :: (B ++ (p2, o2) :: C) := by
  obtain ⟨L1, L2, rfl⟩ := List.append_of_mem h1
  obtain ⟨a1, b1, rfl⟩ := List.append_of_mem ho1
  obtain ⟨a2, b2, rfl⟩ := List.append_of_mem ho2
  unfold SortedLadder prices at hs
  rw [List.map_append, List.map_cons, List.pairwise_append] at hs
  obtain ⟨-, hs2, hs3⟩ := hs
  rcases List.mem_append.1 h2 with hin | hin
  · have hlt := hs3 p2 (List.mem_map_of_mem (fun lv => lv.1) hin) p1 (List.mem_cons_self _ _)
    rw [better_asymm side hb] at hlt
    exact Bool.noConfusion hlt
  · rcases List.mem_cons.1 hin with heq | hin
    · injection heq with hp _
      subst hp
      rw [better_irrefl] at hb
      exact Bool.noConfusion hb
    · obtain ⟨L3, L4, rfl⟩ := List.append_of_mem hin
      refine ⟨priorityOrder L1 ++ a1.map (fun o => (p1, o)),
        b1.map (fun o => (p1, o)) ++ priorityOrder L3 ++ a2.map (fun o => (p2, o)),
        b2.map (fun o => (p2, o)) ++ priorityOrder L4, ?_⟩
      rw [priorityOrder_append, priorityOrder_cons, priorityOrder_append, priorityOrder_cons]
      simp

theorem wellFormed_ids_nodup (b : SimplePriceTimeBook) (h : WellFormed b) (s : Side) :
    ((priorityOrder (b.ladder s)).map (fun z => z.2._orderId)).Nodup := by
  have hnd := h.2.1
  unfold bookEntries at hnd
  rw [List.map_append] at hnd
  cases s with
  | BID =>
    rw [← ladderEntries_ids Side.BID]
    exact hnd.of_append_left
  | ASK =>
    rw [← ladderEntries_ids Side.ASK]
    exact hnd.of_append_right

theorem addOrder_contra (b : SimplePriceTimeBook) (side : Side) (limit : Option Int)
    (orderId quantity : Nat) :
    (addOrder b side limit orderId quantity).ladder (opposite side) =
      (matchIncoming b side limit quantity).contra := by
  unfold addOrder
  cases limit with
  | none => cases side <;> rfl
  | some price =>
    simp only
    by_cases hrem : 0 < (matchIncoming b side (some price) quantity).remaining
    · rw [if_pos hrem]
      cases side <;> rfl
    · rw [if_neg hrem]
      cases side <;> rfl

/-- Priority of `x` over `y` in the contra ladder of a well-formed book, for
the executions of one incoming order. -/
theorem incoming_priority (b : SimplePriceTimeBook) (hb : WellFormed b) (side : Side)
    (limit : Option Int) (orderId quantity : Nat) (x y : Int × RestingOrder)
    (hprec : ∃ A B C : List (Int × RestingOrder),
      priorityOrder (b.ladder (opposite side)) = A ++ x :: (B ++ y :: C))
    (f : Fill) (hf : f ∈ (matchIncoming b side limit quantity).fills)
    (hfy : f.makerId = y.2._orderId) :
    (∃ F1 F2 : List Fill,
        (matchIncoming b side limit quantity).fills = F1 ++ fullFill x :: F2 ∧
          ∀ g ∈ F1, g.makerId ≠ y.2._orderId) ∧
      x.2._orderId ∉
        (priorityOrder ((addOrder b side limit orderId quantity).ladder (opposite side))).map
          (fun z => z.2._orderId) := by
  obtain ⟨A, B, C, hflat⟩ := hprec
  rw [addOrder_contra]
  exact trace_priority _ _ (matchIncoming_trace b side limit quantity)
    (wellFormed_ids_nodup b hb (opposite side)) A B C x y hflat f hf hfy

theorem findLevel_some_mem (l : Ladder) (price : Int) (queue : Queue)
    (h : findLevel l price = some queue) : (price, queue) ∈ l := by
  induction l with
  | nil => exact Option.noConfusion h
  | cons level rest ih =>
    obtain ⟨p, q⟩ := level
    unfold findLevel at h
    by_cases hp : p = price
    · rw [if_pos hp] at h
      injection h with h
      rw [hp, h]
      exact List.mem_cons_self _ _
    · rw [if_neg hp] at h
      exact List.mem_cons_of_mem _ (ih h)

theorem findLevel_of_mem (side : Side) (l : Ladder) (hs : SortedLadder side l) (price : Int)
    (queue : Queue) (h : (price, queue) ∈ l) : findLevel l price = some queue := by
  induction l with
  | nil => exact absurd h (List.not_mem_nil _)
  | cons level rest ih =>
    obtain ⟨p, q⟩ := level
    have hcons : (∀ x ∈ prices rest, better side p x = true) ∧ SortedLadder side rest := by
      unfold SortedLadder prices at hs
      rw [List.map_cons] at hs
      exact List.pairwise_cons.1 hs
    unfold findLevel
    rcases List.mem_cons.1 h with heq | hmem
    · injection heq with h1 h2
      rw [if_pos h1.symm, h2]
    · have hb := hcons.1 price (List.mem_map_of_mem (fun lv => lv.1) hmem)
      rw [if_neg (better_ne side hb)]
      exact ih hcons.2 hmem

/-- A resting order joins the back of the queue of its price level. -/
theorem findLevel_restAt (side : Side) (price : Int) (o : RestingOrder) (l : Ladder)
    (hs : SortedLadder side l) (queue : Queue) (h : findLevel l price = some queue) :
    findLevel (restAt side price o l) price = some (queue ++ [o]) := by
  induction l with
  | nil => exact Option.noConfusion h
  | cons level rest ih =>
    obtain ⟨p, q⟩ := level
    have hcons : (∀ x ∈ prices rest, better side p x = true) ∧ SortedLadder side rest := by
      unfold SortedLadder prices at hs
      rw [List.map_cons] at hs
      exact List.pairwise_cons.1 hs
    unfold findLevel at h
    unfold restAt
    by_cases hp : p = price
    · rw [if_pos hp] at h
      injection h with h
      rw [if_pos hp, h]
      simp [findLevel, hp]
    · rw [if_neg hp] at h
      rw [if_neg hp]
      have hmem := findLevel_some_mem rest price queue h
      have hb := hcons.1 price (List.mem_map_of_mem (fun lv => lv.1) hmem)
      rw [if_neg (by rw [better_asymm side hb]; exact Bool.false_ne_true)]
      simp only [findLevel, if_neg hp]
      exact ih hcons.2 h

theorem findLevel_restAt_new (side : Side) (price : Int) (o : RestingOrder) (l : Ladder)
    (h : findLevel l price = none) : findLevel (restAt side price o l) price = some [o] := by
  induction l with
  | nil => simp [restAt, findLevel]
  | cons level rest ih =>
    obtain ⟨p, q⟩ := level
    unfold findLevel at h
    unfold restAt
    by_cases hp : p = price
    · rw [if_pos hp] at h
      exact Option.noConfusion h
    · rw [if_neg hp] at h
      rw [if_neg hp]
      by_cases hbt : better side price p = true
      · rw [if_pos hbt]
        simp [findLevel]
      · rw [if_neg hbt]
        simp only [findLevel, if_neg hp]
        exact ih h

theorem addOrder_own_ladder (b : SimplePriceTimeBook) (side : Side) (price : Int)
    (orderId quantity : Nat)
    (hrem : 0 < (matchIncoming b side (some price) quantity).remaining) :
    (addOrder b side (some price) orderId quantity).ladder side =
      restAt side price
        { _orderId := orderId
          _remaining := (matchIncoming b side (some price) quantity).remaining
          _timestamp := b._nextSequence } (b.ladder side) := by
  unfold addOrder
  simp only
  rw [if_pos hrem]
  cases side <;> rfl

/-- C7: price priority. In every book reached by valid calls, when an incoming
order executes against a resting contra order `o2` at price `p2`, every
resting contra order `o1` at a better price `p1` has been filled in full, no
execution against `o2` comes before that fill, and `o1` has left the ladder
after the call, whatever the arrival order of `o1` and `o2`. In the scenario
of the specification the bid at 101, which arrived second, is filled (5)
before the bid at 100 (3), nothing rests for order 3, and the best quote
ends at bid 100 with depth 7. -/
theorem C7_price_priority :
    (∀ (ops : List Op) (side : Side) (limit : Option Int) (orderId quantity : Nat)
        (p1 p2 : Int) (q1 q2 : Queue) (o1 o2 : RestingOrder) (f : Fill),
        validRun SimplePriceTimeBook.empty ops = true →
        (p1, q1) ∈ (reached ops).ladder (opposite side) → o1 ∈ q1 →
        (p2, q2) ∈ (reached ops).ladder (opposite side) → o2 ∈ q2 →
        better (opposite side) p1 p2 = true →
        f ∈ (matchIncoming (reached ops) side limit quantity).fills →
        f.makerId = o2._orderId →
        (∃ F1 F2 : List Fill,
            (matchIncoming (reached ops) side limit quantity).fills =
              F1 ++ ⟨o1._orderId, p1, o1._remaining⟩ :: F2 ∧
            ∀ g ∈ F1, g.makerId ≠ o2._orderId) ∧
          o1._orderId ∉
            (priorityOrder
              ((addOrder (reached ops) side limit orderId quantity).ladder (opposite side))).map
                (fun z => z.2._orderId)) ∧
    (reached [Op.addLimitBuy 1 100 10, Op.addLimitBuy 2 101 5]).bestQuote =
      { _bid := some 101, _ask := none } ∧
    (matchIncoming (reached [Op.addLimitBuy 1 100 10, Op.addLimitBuy 2 101 5])
        Side.ASK (some 99) 8).fills = [⟨2, 101, 5⟩, ⟨1, 100, 3⟩] ∧
    (matchIncoming (reached [Op.addLimitBuy 1 100 10, Op.addLimitBuy 2 101 5])
        Side.ASK (some 99) 8).remaining = 0 ∧
    (reached [Op.addLimitBuy 1 100 10, Op.addLimitBuy 2 101 5, Op.addLimitSell 3 99 8])._bids =
      [(100, [⟨1, 7, 0⟩])] ∧
    (reached [Op.addLimitBuy 1 100 10, Op.addLimitBuy 2 101 5, Op.addLimitSell 3 99 8])._asks =
      [] ∧
    (reached [Op.addLimitBuy 1 100 10, Op.addLimitBuy 2 101 5,
        Op.addLimitSell 3 99 8])._liveOrders = [(1, ⟨Side.BID, 100⟩)] ∧
    (reached [Op.addLimitBuy 1 100 10, Op.addLimitBuy 2 101 5,
        Op.addLimitSell 3 99 8]).bestQuote = { _bid := some 100, _ask := none } ∧
    (reached [Op.addLimitBuy 1 100 10, Op.addLimitBuy 2 101 5,
        Op.addLimitSell 3 99 8]).depthQuantity Side.BID 100 = 7 := by
  refine ⟨?_, by decide, by decide, by decide, by decide, by decide, by decide, by decide,
    by decide⟩
  intro ops side limit orderId quantity p1 p2 q1 q2 o1 o2 f hv h1 ho1 h2 ho2 hb hf hfy
  have hwf : WellFormed (reached ops) := reachable_wellFormed ops hv
  exact incoming_priority (reached ops) hwf side limit orderId quantity (p1, o1) (p2, o2)
    (price_precedence (opposite side) _ (hwf.1 (opposite side)).1 p1 p2 q1 q2 o1 o2
      h1 ho1 h2 ho2 hb) f hf hfy

/-- C7, for the sell of 8 at 99 against the bids of 10 at 100 and 5 at 101. -/
theorem C7_price_priority_witness :
    (∃ F1 F2 : List Fill,
        (matchIncoming (reached [Op.addLimitBuy 1 100 10, Op.addLimitBuy 2 101 5])
            Side.ASK (some 99) 8).fills = F1 ++ ⟨2, 101, 5⟩ :: F2 ∧
          ∀ g ∈ F1, g.makerId ≠ 1) ∧
      2 ∉ (priorityOrder
        ((addOrder (reached [Op.addLimitBuy 1 100 10, Op.addLimitBuy 2 101 5])
            Side.ASK (some 99) 3 8).ladder (opposite Side.ASK))).map
          (fun z => z.2._orderId) :=
  C7_price_priority.1 [Op.addLimitBuy 1 100 10, Op.addLimitBuy 2 101 5] Side.ASK (some 99) 3 8
    101 100 [⟨2, 5, 1⟩] [⟨1, 10, 0⟩] ⟨2, 5, 1⟩ ⟨1, 10, 0⟩ ⟨1, 100, 3⟩
    (by decide) (by decide) (by decide) (by decide) (by decide) (by decide) (by decide)
    (by decide)

/-! ### Arrival order within a queue -/

theorem ArrivalOrdered.mono {n m : Nat} {l : Ladder} (h : ArrivalOrdered n l) (hnm : n ≤ m) :
    ArrivalOrdered m l :=
  fun level hl => ⟨(h level hl).1, fun o ho => Nat.lt_of_lt_of_le ((h level hl).2 o ho) hnm⟩

theorem ArrivalOrdered.drop_level {n : Nat} {level : Int × Queue} {l : Ladder}
    (h : ArrivalOrdered n (level :: l)) : ArrivalOrdered n l :=
  fun lv hl => h lv (List.mem_cons_of_mem _ hl)

theorem ArrivalOrdered.set_queue {n : Nat} {p : Int} {queue queue2 : Queue} {l : Ladder}
    (h : ArrivalOrdered n ((p, queue) :: l))
    (hq : (queue2.map (fun o => o._timestamp)).Pairwise (fun a b => a < b) ∧
      ∀ o ∈ queue2, o._timestamp < n) : ArrivalOrdered n ((p, queue2) :: l) := by
  intro lv hl
  rcases List.mem_cons.1 hl with rfl | hl
  · exact hq
  · exact h lv (List.mem_cons_of_mem _ hl)

theorem matchStep_arrival (n : Nat) (cross : Int → Bool) (s next : MatchState)
    (hs : ArrivalOrdered n s.contra) (h : matchStep cross s = some next) :
    ArrivalOrdered n next.contra := by
  obtain ⟨-, p, queue, levels, hc, -, hcase⟩ := matchStep_cases cross s next h
  rw [hc] at hs
  have hhead := hs (p, queue) (List.mem_cons_self _ _)
  rcases hcase with ⟨-, rfl⟩ | ⟨front, others, hq, -, rfl⟩ | ⟨front, others, hq, hlt, rfl⟩
  · exact hs.drop_level
  · subst hq
    by_cases ho : others = []
    · simp only [ho, if_true]
      exact hs.drop_level
    · simp only [ho, if_false]
      refine hs.set_queue ⟨?_, fun o hmem => hhead.2 o (List.mem_cons_of_mem _ hmem)⟩
      have := hhead.1
      rw [List.map_cons] at this
      exact (List.pairwise_cons.1 this).2
  · subst hq
    refine hs.set_queue ⟨?_, ?_⟩
    · simpa using hhead.1
    · intro o hmem
      rcases List.mem_cons.1 hmem with rfl | hmem
      · exact hhead.2 front (List.mem_cons_self _ _)
      · exact hhead.2 o (List.mem_cons_of_mem _ hmem)

theorem restAt_arrival (side : Side) (price : Int) (o : RestingOrder) (l : Ladder)
    (h : ArrivalOrdered o._timestamp l) :
    ArrivalOrdered (o._timestamp + 1) (restAt side price o l) := by
  intro level hl
  rcases restAt_levels side price o l level hl with hmem | rfl | ⟨queue, hq, rfl⟩
  · exact (h.mono (Nat.le_succ _)) level hmem
  · refine ⟨by simp, fun x hx => ?_⟩
    rw [List.mem_singleton] at hx
    rw [hx]
    exact Nat.lt_succ_self _
  · have hqueue := h (price, queue) hq
    refine ⟨?_, fun x hx => ?_⟩
    · rw [List.map_append, List.pairwise_append]
      refine ⟨hqueue.1, by simp, ?_⟩
      intro a ha b hb
      obtain ⟨x, hx, rfl⟩ := List.mem_map.1 ha
      simp only [List.map_cons, List.map_nil, List.mem_singleton] at hb
      rw [hb]
      exact hqueue.2 x hx
    · rcases List.mem_append.1 hx with hx | hx
      · exact Nat.lt_succ_of_lt (hqueue.2 x hx)
      · rw [List.mem_singleton] at hx
        rw [hx]
        exact Nat.lt_succ_self _

theorem eraseOrder_sublist (orderId : Nat) (queue : Queue) :
    (eraseOrder orderId queue).Sublist queue := by
  induction queue with
  | nil => exact List.Sublist.refl _
  | cons head rest ih =>
    unfold eraseOrder
    by_cases hid : head._orderId = orderId
    · rw [if_pos hid]
      exact List.sublist_cons_self _ _
    · rw [if_neg hid]
      exact ih.cons₂ _

theorem removeAt_arrival (n : Nat) (price : Int) (orderId : Nat) (l : Ladder)
    (h : ArrivalOrdered n l) : ArrivalOrdered n (removeAt price orderId l) := by
  intro level hl
  rcases removeAt_levels price orderId l level hl with hmem | ⟨queue, hq, -, rfl⟩
  · exact h level hmem
  · have hqueue := h (price, queue) hq
    exact ⟨List.Pairwise.sublist ((eraseOrder_sublist orderId queue).map _) hqueue.1,
      fun x hx => hqueue.2 x (eraseOrder_subset orderId queue x hx)⟩

theorem addOrder_arrival (b : SimplePriceTimeBook) (side : Side) (limit : Option Int)
    (orderId quantity : Nat) (h : ∀ s : Side, ArrivalOrdered b._nextSequence (b.ladder s)) :
    ∀ s : Side, ArrivalOrdered (addOrder b side limit orderId quantity)._nextSequence
      ((addOrder b side limit orderId quantity).ladder s) := by
  have hc : ArrivalOrdered b._nextSequence (matchIncoming b side limit quantity).contra := by
    unfold matchIncoming
    refine matchLoop_invariant (crosses side limit)
      (fun s => ArrivalOrdered b._nextSequence s.contra)
      (fun s next hs hstep => matchStep_arrival _ _ s next hs hstep) _ _ ?_
    exact h (opposite side)
  have hm : ∀ s : Side, ArrivalOrdered b._nextSequence
      (({ b.withLadder (opposite side) (matchIncoming b side limit quantity).contra with
          _liveOrders := (matchIncoming b side limit quantity).index } :
            SimplePriceTimeBook).ladder s) := by
    intro s
    cases side <;> cases s
    · exact h Side.BID
    · exact hc
    · exact hc
    · exact h Side.ASK
  unfold addOrder
  cases limit with
  | none =>
    intro s
    cases side <;> exact hm s
  | some price =>
    simp only
    by_cases hrem : 0 < (matchIncoming b side (some price) quantity).remaining
    · rw [if_pos hrem]
      have hr := restAt_arrival side price
        { _orderId := orderId, _remaining := (matchIncoming b side (some price) quantity).remaining,
          _timestamp := b._nextSequence } _ (hm side)
      intro s
      cases side <;> cases s
      · exact hr
      · exact (hm Side.ASK).mono (Nat.le_succ _)
      · exact (hm Side.BID).mono (Nat.le_succ _)
      · exact hr
    · rw [if_neg hrem]
      intro s
      cases side <;> exact hm s

theorem cancel_arrival (b : SimplePriceTimeBook) (orderId : Nat)
    (h : ∀ s : Side, ArrivalOrdered b._nextSequence (b.ladder s)) :
    ∀ s : Side, ArrivalOrdered (b.cancel orderId).2._nextSequence
      ((b.cancel orderId).2.ladder s) := by
  unfold SimplePriceTimeBook.cancel
  cases hf : locatorFind b._liveOrders orderId with
  | none => exact h
  | some loc =>
    obtain ⟨side, price⟩ := loc
    have hr := removeAt_arrival b._nextSequence price orderId (b.ladder side) (h side)
    intro s
    cases side <;> cases s
    · exact hr
    · exact h Side.ASK
    · exact h Side.BID
    · exact hr

theorem step_arrival (b : SimplePriceTimeBook) (op : Op)
    (h : ∀ s : Side, ArrivalOrdered b._nextSequence (b.ladder s)) :
    ∀ s : Side, ArrivalOrdered (step b op)._nextSequence ((step b op).ladder s) := by
  cases op with
  | addMarketBuy orderId quantity => exact addOrder_arrival b Side.BID none orderId quantity h
  | addMarketSell orderId quantity => exact addOrder_arrival b Side.ASK none orderId quantity h
  | addLimitBuy orderId priceT quantity =>
    exact addOrder_arrival b Side.BID (some priceT) orderId quantity h
  | addLimitSell orderId priceT quantity =>
    exact addOrder_arrival b Side.ASK (some priceT) orderId quantity h
  | cancel orderId => exact cancel_arrival b orderId h

theorem run_arrival (ops : List Op) :
    ∀ b : SimplePriceTimeBook, (∀ s : Side, ArrivalOrdered b._nextSequence (b.ladder s)) →
      ∀ s : Side, ArrivalOrdered (run b ops)._nextSequence ((run b ops).ladder s) := by
  induction ops with
  | nil => intro b h; exact h
  | cons op ops ih =>
    intro b h
    exact ih (step b op) (step_arrival b op h)

theorem reachable_arrival (ops : List Op) (s : Side) :
    ArrivalOrdered (reached ops)._nextSequence ((reached ops).ladder s) :=
  run_arrival ops SimplePriceTimeBook.empty
    (fun s => by cases s <;> exact fun _ hl => absurd hl (List.not_mem_nil _)) s

/-- C8: time priority. In every book reached by valid calls, when `a` stands
before `c` in the queue of one contra price level and an incoming order
executes against `c`, then `a` has been filled in full at that price, no
execution against `c` comes before that fill, and `a` has left the ladder
after the call. Queue order is arrival order: an order that rests joins the
back of the queue of its price level, or opens the level, and in every
reachable book the arrival sequence numbers of a queue strictly increase
front to back. -/
theorem C8_time_priority :
    (∀ (ops : List Op) (side : Side) (limit : Option Int) (orderId quantity : Nat)
        (p : Int) (F M K : Queue) (a c : RestingOrder) (f : Fill),
        validRun SimplePriceTimeBook.empty ops = true →
        (p, F ++ a :: (M ++ c :: K)) ∈ (reached ops).ladder (opposite side) →
        f ∈ (matchIncoming (reached ops) side limit quantity).fills →
        f.makerId = c._orderId →
        (∃ F1 F2 : List Fill,
            (matchIncoming (reached ops) side limit quantity).fills =
              F1 ++ ⟨a._orderId, p, a._remaining⟩ :: F2 ∧
            ∀ g ∈ F1, g.makerId ≠ c._orderId) ∧
          a._orderId ∉
            (priorityOrder
              ((addOrder (reached ops) side limit orderId quantity).ladder (opposite side))).map
                (fun z => z.2._orderId)) ∧
    (∀ (ops : List Op) (side : Side) (price : Int) (orderId quantity : Nat) (queue : Queue),
        findLevel ((reached ops).ladder side) price = some queue →
        0 < (matchIncoming (reached ops) side (some price) quantity).remaining →
        findLevel ((addOrder (reached ops) side (some price) orderId quantity).ladder side) price =
          some (queue ++
            [{ _orderId := orderId
               _remaining := (matchIncoming (reached ops) side (some price) quantity).remaining
               _timestamp := (reached ops)._nextSequence }])) ∧
    (∀ (ops : List Op) (side : Side) (price : Int) (orderId quantity : Nat),
        findLevel ((reached ops).ladder side) price = none →
        0 < (matchIncoming (reached ops) side (some price) quantity).remaining →
        findLevel ((addOrder (reached ops) side (some price) orderId quantity).ladder side) price =
          some
            [{ _orderId := orderId
               _remaining := (matchIncoming (reached ops) side (some price) quantity).remaining
               _timestamp := (reached ops)._nextSequence }]) ∧
    (∀ (ops : List Op) (side : Side) (level : Int × Queue),
        level ∈ (reached ops).ladder side →
        (level.2.map (fun o => o._timestamp)).Pairwise (fun a b => a < b)) := by
  refine ⟨?_, ?_, ?_, fun ops side level hl => (reachable_arrival ops side level hl).1⟩
  · intro ops side limit orderId quantity p F M K a c f hv hq hf hfc
    have hwf : WellFormed (reached ops) := reachable_wellFormed ops hv
    exact incoming_priority (reached ops) hwf side limit orderId quantity (p, a) (p, c)
      (queue_precedence _ p F M K a c hq) f hf hfc
  · intro ops side price orderId quantity queue hfind hrem
    rw [addOrder_own_ladder _ side price orderId quantity hrem]
    exact findLevel_restAt side price _ _ (reachable_ladderOK ops side).1 queue hfind
  · intro ops side price orderId quantity hfind hrem
    rw [addOrder_own_ladder _ side price orderId quantity hrem]
    exact findLevel_restAt_new side price _ _ hfind

/-- C8, for three bids resting at 100 in the order 1, 2, 3 and a market sell
of 12: order 1 is filled in full (10) before order 2 is touched (2). -/
theorem C8_time_priority_witness :
    ((∃ F1 F2 : List Fill,
        (matchIncoming
            (reached [Op.addLimitBuy 1 100 10, Op.addLimitBuy 2 100 5, Op.addLimitBuy 3 100 7])
            Side.ASK none 12).fills = F1 ++ ⟨1, 100, 10⟩ :: F2 ∧
          ∀ g ∈ F1, g.makerId ≠ 2) ∧
      1 ∉ (priorityOrder
        ((addOrder
            (reached [Op.addLimitBuy 1 100 10, Op.addLimitBuy 2 100 5, Op.addLimitBuy 3 100 7])
            Side.ASK none 4 12).ladder (opposite Side.ASK))).map (fun z => z.2._orderId)) ∧
    findLevel
        ((addOrder (reached [Op.addLimitBuy 1 100 10, Op.addLimitBuy 2 100 5])
          Side.BID (some 100) 3 7).ladder Side.BID) 100 =
      some ([⟨1, 10, 0⟩, ⟨2, 5, 1⟩] ++ [⟨3, 7, 2⟩]) :=
  ⟨C8_time_priority.1
      [Op.addLimitBuy 1 100 10, Op.addLimitBuy 2 100 5, Op.addLimitBuy 3 100 7]
      Side.ASK none 4 12 100 [] [] [⟨3, 7, 2⟩] ⟨1, 10, 0⟩ ⟨2, 5, 1⟩ ⟨2, 100, 2⟩
      (by decide) (by decide) (by decide) (by decide),
    C8_time_priority.2.1 [Op.addLimitBuy 1 100 10, Op.addLimitBuy 2 100 5]
      Side.BID 100 3 7 [⟨1, 10, 0⟩, ⟨2, 5, 1⟩] (by decide) (by decide)⟩

/-! ### Cancel -/

theorem cancel_result (b : SimplePriceTimeBook) (orderId : Nat) :
    ((b.cancel orderId).1 = CancelResult.OK ↔
        ∃ loc, locatorFind b._liveOrders orderId = some loc) ∧
      ((b.cancel orderId).1 = CancelResult.NOT_FOUND ↔
        locatorFind b._liveOrders orderId = none) ∧
      (b.cancel orderId).1 ≠ CancelResult.ALREADY_CLOSED := by
  unfold SimplePriceTimeBook.cancel
  cases hf : locatorFind b._liveOrders orderId with
  | none => simp
  | some loc => simp

theorem cancel_ladder (b : SimplePriceTimeBook) (orderId : Nat) (loc : Locator)
    (hf : locatorFind b._liveOrders orderId = some loc) (s : Side) :
    (b.cancel orderId).2.ladder s =
      if s = loc.side then removeAt loc.price orderId (b.ladder s) else b.ladder s := by
  unfold SimplePriceTimeBook.cancel
  rw [hf]
  obtain ⟨side, price⟩ := loc
  cases side <;> cases s <;> simp [SimplePriceTimeBook.ladder, SimplePriceTimeBook.withLadder]

theorem cancel_index (b : SimplePriceTimeBook) (orderId : Nat) (loc : Locator)
    (hf : locatorFind b._liveOrders orderId = some loc) :
    (b.cancel orderId).2._liveOrders = locatorErase b._liveOrders orderId := by
  unfold SimplePriceTimeBook.cancel
  rw [hf]

theorem findLevel_removeAt_other (price : Int) (orderId : Nat) (l : Ladder) (p2 : Int)
    (hne : p2 ≠ price) : findLevel (removeAt price orderId l) p2 = findLevel l p2 := by
  induction l with
  | nil => rfl
  | cons level rest ih =>
    obtain ⟨p, q⟩ := level
    unfold removeAt
    by_cases hp : p = price
    · rw [if_pos hp]
      have hp2 : ¬ p = p2 := fun e => hne (e.symm.trans hp)
      by_cases he : eraseOrder orderId q = []
      · rw [if_pos he]
        simp [findLevel, hp2]
      · rw [if_neg he]
        simp [findLevel, hp2]
    · rw [if_neg hp]
      simp only [findLevel, ih]

theorem findLevel_removeAt_same (side : Side) (price : Int) (orderId : Nat) (l : Ladder)
    (hs : SortedLadder side l) (queue : Queue) (h : findLevel l price = some queue) :
    findLevel (removeAt price orderId l) price =
      if eraseOrder orderId queue = [] then none else some (eraseOrder orderId queue) := by
  induction l with
  | nil => exact Option.noConfusion h
  | cons level rest ih =>
    obtain ⟨p, q⟩ := level
    have hcons : (∀ x ∈ prices rest, better side p x = true) ∧ SortedLadder side rest := by
      unfold SortedLadder prices at hs
      rw [List.map_cons] at hs
      exact List.pairwise_cons.1 hs
    unfold findLevel at h
    unfold removeAt
    by_cases hp : p = price
    · rw [if_pos hp] at h
      injection h with h
      subst h
      rw [if_pos hp]
      by_cases he : eraseOrder orderId q = []
      · rw [if_pos he, if_pos he]
        cases hr : findLevel rest price with
        | none => rfl
        | some q2 =>
          have hmem := findLevel_some_mem rest price q2 hr
          have hb := hcons.1 price (List.mem_map_of_mem (fun lv => lv.1) hmem)
          exact absurd hp (better_ne side hb)
      · rw [if_neg he, if_neg he]
        simp [findLevel, hp]
    · rw [if_neg hp] at h
      rw [if_neg hp]
      simp only [findLevel, if_neg hp]
      exact ih hcons.2 h

theorem eraseOrder_quantity (orderId : Nat) (queue : Queue)
    (hnd : (queue.map (fun o => o._orderId)).Nodup) (o : RestingOrder) (ho : o ∈ queue)
    (hid : o._orderId = orderId) :
    levelQuantity (eraseOrder orderId queue) + o._remaining = levelQuantity queue := by
  induction queue with
  | nil => exact absurd ho (List.not_mem_nil _)
  | cons head rest ih =>
    rw [List.map_cons, List.nodup_cons] at hnd
    unfold eraseOrder
    by_cases hh : head._orderId = orderId
    · rw [if_pos hh]
      rcases List.mem_cons.1 ho with rfl | hmem
      · simp only [levelQuantity, List.map_cons, List.sum_cons]
        omega
      · exact absurd (List.mem_map.2 ⟨o, hmem, hid.trans hh.symm⟩) hnd.1
    · rw [if_neg hh]
      rcases List.mem_cons.1 ho with rfl | hmem
      · exact absurd hid hh
      · have := ih hnd.2 hmem
        simp only [levelQuantity, List.map_cons, List.sum_cons] at this ⊢
        omega

theorem wellFormed_queue_nodup (b : SimplePriceTimeBook) (h : WellFormed b) (s : Side)
    (p : Int) (queue : Queue) (hmem : (p, queue) ∈ b.ladder s) :
    (queue.map (fun o => o._orderId)).Nodup := by
  have hnd := wellFormed_ids_nodup b h s
  obtain ⟨L1, L2, hl⟩ := List.append_of_mem hmem
  rw [hl, priorityOrder_append, priorityOrder_cons, List.map_append, List.map_append,
    List.map_map] at hnd
  exact hnd.of_append_right.of_append_left

/-- An id that is not live stays so as long as it is not submitted as a limit order. -/
theorem addOrder_find_none (b : SimplePriceTimeBook) (side : Side) (limit : Option Int)
    (orderId quantity k : Nat) (hk : locatorFind b._liveOrders k = none)
    (hne : limit = none ∨ k ≠ orderId) :
    locatorFind (addOrder b side limit orderId quantity)._liveOrders k = none := by
  have hm := matchIncoming_fresh b side limit quantity k hk
  unfold addOrder
  cases limit with
  | none => cases side <;> exact hm
  | some price =>
    have hko : k ≠ orderId := by
      rcases hne with h | h
      · exact Option.noConfusion h
      · exact h
    simp only
    by_cases hrem : 0 < (matchIncoming b side (some price) quantity).remaining
    · rw [if_pos hrem]
      have : locatorFind (locatorInsert (matchIncoming b side (some price) quantity).index orderId
          { side := side, price := price }) k = none := by
        rw [locatorFind_insert, if_neg hko]
        exact hm
      cases side <;> exact this
    · rw [if_neg hrem]
      cases side <;> exact hm

theorem cancel_find_none (b : SimplePriceTimeBook) (orderId k : Nat)
    (hk : locatorFind b._liveOrders k = none) :
    locatorFind (b.cancel orderId).2._liveOrders k = none := by
  cases hf : locatorFind b._liveOrders orderId with
  | none =>
    unfold SimplePriceTimeBook.cancel
    rw [hf]
    exact hk
  | some loc =>
    rw [cancel_index b orderId loc hf, locatorFind_erase, hk]
    split <;> rfl

theorem run_find_none (ops : List Op) (k : Nat) :
    ∀ b : SimplePriceTimeBook, locatorFind b._liveOrders k = none → k ∉ limitIds ops →
      locatorFind (run b ops)._liveOrders k = none := by
  induction ops with
  | nil => intro b h _; exact h
  | cons op ops ih =>
    intro b h hops
    cases op with
    | addMarketBuy orderId quantity =>
      exact ih _ (addOrder_find_none b Side.BID none orderId quantity k h (Or.inl rfl)) hops
    | addMarketSell orderId quantity =>
      exact ih _ (addOrder_find_none b Side.ASK none orderId quantity k h (Or.inl rfl)) hops
    | addLimitBuy orderId priceT quantity =>
      simp only [limitIds, List.mem_cons, not_or] at hops
      exact ih _ (addOrder_find_none b Side.BID (some priceT) orderId quantity k h
        (Or.inr hops.1)) hops.2
    | addLimitSell orderId priceT quantity =>
      simp only [limitIds, List.mem_cons, not_or] at hops
      exact ih _ (addOrder_find_none b Side.ASK (some priceT) orderId quantity k h
        (Or.inr hops.1)) hops.2
    | cancel orderId => exact ih _ (cancel_find_none b orderId k h) hops

theorem wellFormed_resting_iff (b : SimplePriceTimeBook) (h : WellFormed b) (orderId : Nat) :
    (∃ loc, locatorFind b._liveOrders orderId = some loc) ↔ orderId ∈ restingIds b := by
  unfold restingIds
  constructor
  · rintro ⟨loc, hloc⟩
    exact List.mem_map_of_mem (fun e => e.1) ((h.2.2 orderId loc).1 hloc)
  · intro hmem
    obtain ⟨e, he, hk⟩ := List.mem_map.1 hmem
    obtain ⟨k, loc⟩ := e
    simp only at hk
    subst hk
    exact ⟨loc, (h.2.2 k loc).2 he⟩

/-- What a successful cancel does to a well-formed book. -/
theorem cancel_effect (b : SimplePriceTimeBook) (hwf : WellFormed b) (orderId : Nat)
    (hok : (b.cancel orderId).1 = CancelResult.OK) :
    ∃ (loc : Locator) (queue : Queue) (o : RestingOrder),
      locatorFind b._liveOrders orderId = some loc ∧
      findLevel (b.ladder loc.side) loc.price = some queue ∧
      o ∈ queue ∧ o._orderId = orderId ∧
      (b.cancel orderId).2.depthQuantity loc.side loc.price + o._remaining =
        b.depthQuantity loc.side loc.price ∧
      (∀ (s : Side) (p : Int), (s ≠ loc.side ∨ p ≠ loc.price) →
        (b.cancel orderId).2.depthQuantity s p = b.depthQuantity s p) ∧
      findLevel ((b.cancel orderId).2.ladder loc.side) loc.price =
        (if eraseOrder orderId queue = [] then none else some (eraseOrder orderId queue)) ∧
      (∀ s : Side, NoEmptyLevel ((b.cancel orderId).2.ladder s)) ∧
      orderId ∉ restingIds (b.cancel orderId).2 ∧
      ((b.cancel orderId).2.cancel orderId).1 = CancelResult.NOT_FOUND := by
  obtain ⟨loc, hloc⟩ := (cancel_result b orderId).1.1 hok
  obtain ⟨queue, hq, o, ho, hid⟩ := (mem_bookEntries b orderId loc).1 ((hwf.2.2 orderId loc).1 hloc)
  have hsorted := (hwf.1 loc.side).1
  have hfind := findLevel_of_mem loc.side _ hsorted loc.price queue hq
  have hnd := wellFormed_queue_nodup b hwf loc.side loc.price queue hq
  have hqty := eraseOrder_quantity orderId queue hnd o ho hid
  have hsame := findLevel_removeAt_same loc.side loc.price orderId _ hsorted queue hfind
  have hnone : locatorFind (b.cancel orderId).2._liveOrders orderId = none := by
    rw [cancel_index b orderId loc hloc, locatorFind_erase, if_pos rfl]
  have hwf2 := cancel_wellFormed b orderId hwf
  refine ⟨loc, queue, o, hloc, hfind, ho, hid, ?_, ?_, ?_, ?_, ?_, ?_⟩
  · unfold SimplePriceTimeBook.depthQuantity
    rw [cancel_ladder b orderId loc hloc, if_pos rfl, hsame, hfind]
    by_cases he : eraseOrder orderId queue = []
    · rw [if_pos he]
      rw [he] at hqty
      simpa [levelQuantity] using hqty
    · rw [if_neg he]
      exact hqty
  · intro s p hne
    unfold SimplePriceTimeBook.depthQuantity
    rw [cancel_ladder b orderId loc hloc]
    by_cases hs : s = loc.side
    · rw [if_pos hs]
      have hp : p ≠ loc.price := by
        rcases hne with h | h
        · exact absurd hs h
        · exact h
      rw [findLevel_removeAt_other loc.price orderId _ p hp]
    · rw [if_neg hs]
  · rw [cancel_ladder b orderId loc hloc, if_pos rfl]
    exact hsame
  · exact fun s => (hwf2.1 s).2.1
  · exact (hwf2.2.fresh orderId).1 hnone
  · exact (cancel_result _ orderId).2.1.2 hnone

/-- C10: on every book reached by valid calls `cancel(id)` returns OK exactly
when `id` is resting and NOT_FOUND otherwise, in particular for an id never
submitted as a limit order; it never returns ALREADY_CLOSED. After an OK the
depth at the order's level has dropped by the order's remaining quantity,
every other depth is unchanged, the level is gone when its queue became
empty, the id no longer rests, and a second `cancel(id)` returns NOT_FOUND.
The scenario of the specification is included. -/
theorem C10_cancel :
    (∀ (ops : List Op) (orderId : Nat), validRun SimplePriceTimeBook.empty ops = true →
        (((reached ops).cancel orderId).1 = CancelResult.OK ↔
          orderId ∈ restingIds (reached ops)) ∧
        (((reached ops).cancel orderId).1 = CancelResult.NOT_FOUND ↔
          orderId ∉ restingIds (reached ops))) ∧
    (∀ (b : SimplePriceTimeBook) (orderId : Nat),
        (b.cancel orderId).1 ≠ CancelResult.ALREADY_CLOSED) ∧
    (∀ (ops : List Op) (orderId : Nat), orderId ∉ limitIds ops →
        ((reached ops).cancel orderId).1 = CancelResult.NOT_FOUND) ∧
    (∀ (ops : List Op) (orderId : Nat), validRun SimplePriceTimeBook.empty ops = true →
        ((reached ops).cancel orderId).1 = CancelResult.OK →
        ∃ (loc : Locator) (queue : Queue) (o : RestingOrder),
          locatorFind (reached ops)._liveOrders orderId = some loc ∧
          findLevel ((reached ops).ladder loc.side) loc.price = some queue ∧
          o ∈ queue ∧ o._orderId = orderId ∧
          ((reached ops).cancel orderId).2.depthQuantity loc.side loc.price + o._remaining =
            (reached ops).depthQuantity loc.side loc.price ∧
          (∀ (s : Side) (p : Int), (s ≠ loc.side ∨ p ≠ loc.price) →
            ((reached ops).cancel orderId).2.depthQuantity s p =
              (reached ops).depthQuantity s p) ∧
          findLevel (((reached ops).cancel orderId).2.ladder loc.side) loc.price =
            (if eraseOrder orderId queue = [] then none
              else some (eraseOrder orderId queue)) ∧
          (∀ s : Side, NoEmptyLevel (((reached ops).cancel orderId).2.ladder s)) ∧
          orderId ∉ restingIds ((reached ops).cancel orderId).2 ∧
          (((reached ops).cancel orderId).2.cancel orderId).1 = CancelResult.NOT_FOUND) ∧
    ((reached [Op.addLimitBuy 5 100 10]).cancel 5).1 = CancelResult.OK ∧
    ((reached [Op.addLimitBuy 5 100 10]).cancel 5).2.depthQuantity Side.BID 100 = 0 ∧
    ((reached [Op.addLimitBuy 5 100 10]).cancel 5).2.bestQuote._bid = none ∧
    (((reached [Op.addLimitBuy 5 100 10]).cancel 5).2.cancel 5).1 = CancelResult.NOT_FOUND ∧
    ((reached [Op.addLimitBuy 1 100 10, Op.addLimitBuy 2 101 5,
        Op.addLimitSell 3 99 8]).cancel 2).1 = CancelResult.NOT_FOUND ∧
    ((reached [Op.addMarketSell 4 50]).cancel 4).1 = CancelResult.NOT_FOUND := by
  refine ⟨?_, ?_, ?_, ?_, by decide, by decide, by decide, by decide, by decide, by decide⟩
  · intro ops orderId hv
    have hwf : WellFormed (reached ops) := reachable_wellFormed ops hv
    have hres := cancel_result (reached ops) orderId
    have hiff := wellFormed_resting_iff (reached ops) hwf orderId
    refine ⟨hres.1.trans hiff, hres.2.1.trans ?_⟩
    rw [← hiff]
    cases hf : locatorFind (reached ops)._liveOrders orderId with
    | none => simp
    | some loc => simp
  · intro b orderId
    exact (cancel_result b orderId).2.2
  · intro ops orderId hops
    exact (cancel_result (reached ops) orderId).2.1.2
      (run_find_none ops orderId SimplePriceTimeBook.empty rfl hops)
  · intro ops orderId hv hok
    exact cancel_effect (reached ops) (reachable_wellFormed ops hv) orderId hok

/-- C10, on the book with bids 1 and 2 resting at 100 and bid 3 at 101: the
cancel of order 1 returns OK and leaves depth 5 at 100, the cancel of the
unknown id 9 returns NOT_FOUND. -/
theorem C10_cancel_witness :
    (((reached [Op.addLimitBuy 1 100 10, Op.addLimitBuy 2 100 5,
        Op.addLimitBuy 3 101 7]).cancel 1).1 = CancelResult.OK ↔
      1 ∈ restingIds (reached [Op.addLimitBuy 1 100 10, Op.addLimitBuy 2 100 5,
        Op.addLimitBuy 3 101 7])) ∧
    ((reached [Op.addLimitBuy 1 100 10, Op.addMarketSell 9 3]).cancel 9).1 =
      CancelResult.NOT_FOUND ∧
    (∃ (loc : Locator) (queue : Queue) (o : RestingOrder),
      locatorFind (reached [Op.addLimitBuy 1 100 10, Op.addLimitBuy 2 100 5,
        Op.addLimitBuy 3 101 7])._liveOrders 1 = some loc ∧
      findLevel ((reached [Op.addLimitBuy 1 100 10, Op.addLimitBuy 2 100 5,
        Op.addLimitBuy 3 101 7]).ladder loc.side) loc.price = some queue ∧
      o ∈ queue ∧ o._orderId = 1 ∧
      ((reached [Op.addLimitBuy 1 100 10, Op.addLimitBuy 2 100 5,
          Op.addLimitBuy 3 101 7]).cancel 1).2.depthQuantity loc.side loc.price +
          o._remaining =
        (reached [Op.addLimitBuy 1 100 10, Op.addLimitBuy 2 100 5,
          Op.addLimitBuy 3 101 7]).depthQuantity loc.side loc.price) :=
  ⟨(C10_cancel.1 [Op.addLimitBuy 1 100 10, Op.addLimitBuy 2 100 5, Op.addLimitBuy 3 101 7] 1
      (by decide)).1,
    C10_cancel.2.2.1 [Op.addLimitBuy 1 100 10, Op.addMarketSell 9 3] 9 (by decide),
    by
      obtain ⟨loc, queue, o, h1, h2, h3, h4, h5, -⟩ :=
        C10_cancel.2.2.2.1 [Op.addLimitBuy 1 100 10, Op.addLimitBuy 2 100 5,
          Op.addLimitBuy 3 101 7] 1 (by decide) (by decide)
      exact ⟨loc, queue, o, h1, h2, h3, h4, h5⟩⟩

/-! ### Market orders -/

theorem matchStep_no_new_entry (cross : Int → Bool) (s next : MatchState)
    (h : matchStep cross s = some next) (k : Nat) (loc : Locator)
    (hk : locatorFind next.index k = some loc) : locatorFind s.index k = some loc := by
  obtain ⟨-, p, queue, levels, -, -, hcase⟩ := matchStep_cases cross s next h
  rcases hcase with ⟨-, rfl⟩ | ⟨front, others, -, -, rfl⟩ | ⟨front, others, -, -, rfl⟩
  · exact hk
  · simp only [locatorFind_erase] at hk
    by_cases hkf : k = front._orderId
    · rw [if_pos hkf] at hk
      exact Option.noConfusion hk
    · rw [if_neg hkf] at hk
      exact hk
  · exact hk

theorem matchIncoming_no_new_entry (b : SimplePriceTimeBook) (side : Side)
    (limit : Option Int) (quantity : Nat) (k : Nat) (loc : Locator)
    (hk : locatorFind (matchIncoming b side limit quantity).index k = some loc) :
    locatorFind b._liveOrders k = some loc := by
  have hinv : ∀ (k : Nat) (loc : Locator),
      locatorFind (matchIncoming b side limit quantity).index k = some loc →
        locatorFind b._liveOrders k = some loc := by
    unfold matchIncoming
    refine matchLoop_invariant (crosses side limit)
      (fun s => ∀ (k : Nat) (loc : Locator),
        locatorFind s.index k = some loc → locatorFind b._liveOrders k = some loc)
      (fun s next hs hstep k loc hk =>
        hs k loc (matchStep_no_new_entry _ s next hstep k loc hk)) _ _ ?_
    intro k loc hk
    exact hk
  exact hinv k loc hk

theorem addOrder_market (b : SimplePriceTimeBook) (side : Side) (orderId quantity : Nat) :
    addOrder b side none orderId quantity =
      { b.withLadder (opposite side) (matchIncoming b side none quantity).contra with
        _liveOrders := (matchIncoming b side none quantity).index } := rfl

theorem addOrder_market_own_side (b : SimplePriceTimeBook) (side : Side)
    (orderId quantity : Nat) :
    (addOrder b side none orderId quantity).ladder side = b.ladder side := by
  rw [addOrder_market]
  cases side <;> rfl

theorem trace_ids_subset (start : Ladder) (s : MatchState) (ht : Trace start s) (k : Nat)
    (hk : k ∈ (priorityOrder s.contra).map (fun z => z.2._orderId)) :
    k ∈ (priorityOrder start).map (fun z => z.2._orderId) := by
  obtain ⟨served, waiting, hsplit, hcase⟩ := ht
  have hids : (priorityOrder s.contra).map (fun z => z.2._orderId) =
      waiting.map (fun z => z.2._orderId) := by
    rcases hcase with ⟨-, hwait⟩ | ⟨p, o, tail, q, hw, -, -, -, hwait⟩
    · rw [hwait]
    · rw [hwait, hw]
      simp
  rw [hids] at hk
  rw [hsplit, List.map_append]
  exact List.mem_append_right _ hk

/-- A market order adds no id to the queues. -/
theorem addOrder_market_resting (b : SimplePriceTimeBook) (side : Side)
    (orderId quantity k : Nat) (hk : k ∈ restingIds (addOrder b side none orderId quantity)) :
    k ∈ restingIds b := by
  have hsub := trace_ids_subset _ _ (matchIncoming_trace b side none quantity) k
  rw [addOrder_market] at hk
  unfold restingIds bookEntries at hk ⊢
  rw [List.map_append, List.mem_append] at hk ⊢
  cases side with
  | BID =>
    rcases hk with hk | hk
    · exact Or.inl hk
    · refine Or.inr ?_
      rw [ladderEntries_ids] at hk ⊢
      exact hsub hk
  | ASK =>
    rcases hk with hk | hk
    · refine Or.inl ?_
      rw [ladderEntries_ids] at hk ⊢
      exact hsub hk
    · exact Or.inr hk

/-- C11 (counterexample): an order id that is live at submission keeps its
locator entry and its resting order through a market order. After
`addLimitSell(4,105,3)` the call `addMarketSell(4,50)`, with quantity 50 > 0,
leaves id 4 with the locator `(ASK, 105)` and in the ask queue, and
`cancel(4)` returns OK. -/
theorem C11_live_id_keeps_its_locator :
    validRun SimplePriceTimeBook.empty [Op.addLimitSell 4 105 3] = true ∧
    0 < 50 ∧
    locatorFind ((reached [Op.addLimitSell 4 105 3]).addMarketSell 4 50)._liveOrders 4 =
      some { side := Side.ASK, price := 105 } ∧
    4 ∈ restingIds ((reached [Op.addLimitSell 4 105 3]).addMarketSell 4 50) ∧
    (((reached [Op.addLimitSell 4 105 3]).addMarketSell 4 50).cancel 4).1 =
      CancelResult.OK := by
  decide

/-- C11 (amended): market orders never rest. For every book, order id and
quantity a market buy or sell changes only the contra ladder and the locator
index: its own side and the arrival counter are as before, whatever remainder
is left is dropped, and it creates no locator entry and no resting order.
Submitted with quantity > 0 and an id that is not live at submission, on any
book where the id does not rest and on every book reached by valid calls, it
leaves that id without locator entry and without resting order, so a later
`cancel` of the id returns NOT_FOUND. On the empty book `addMarketSell(4,50)`
changes nothing and `cancel(4)` returns NOT_FOUND. -/
theorem C11_market_orders_never_rest :
    (∀ (b : SimplePriceTimeBook) (orderId quantity : Nat),
      b.addMarketBuy orderId quantity = addOrder b Side.BID none orderId quantity ∧
      b.addMarketSell orderId quantity = addOrder b Side.ASK none orderId quantity) ∧
    (∀ (b : SimplePriceTimeBook) (side : Side) (orderId quantity : Nat),
      (addOrder b side none orderId quantity).ladder side = b.ladder side ∧
      (addOrder b side none orderId quantity)._nextSequence = b._nextSequence ∧
      (addOrder b side none orderId quantity).ladder (opposite side) =
        (matchIncoming b side none quantity).contra ∧
      (addOrder b side none orderId quantity)._liveOrders =
        (matchIncoming b side none quantity).index) ∧
    (∀ (b : SimplePriceTimeBook) (side : Side) (orderId quantity k : Nat) (loc : Locator),
      locatorFind (addOrder b side none orderId quantity)._liveOrders k = some loc →
        locatorFind b._liveOrders k = some loc) ∧
    (∀ (b : SimplePriceTimeBook) (side : Side) (orderId quantity k : Nat),
      k ∈ restingIds (addOrder b side none orderId quantity) → k ∈ restingIds b) ∧
    (∀ (b : SimplePriceTimeBook) (side : Side) (orderId quantity : Nat),
      0 < quantity → locatorFind b._liveOrders orderId = none → orderId ∉ restingIds b →
        locatorFind (addOrder b side none orderId quantity)._liveOrders orderId = none ∧
        orderId ∉ restingIds (addOrder b side none orderId quantity) ∧
        ((addOrder b side none orderId quantity).cancel orderId).1 =
          CancelResult.NOT_FOUND) ∧
    (∀ (ops : List Op) (side : Side) (orderId quantity : Nat),
      validRun SimplePriceTimeBook.empty ops = true → 0 < quantity →
      locatorFind (reached ops)._liveOrders orderId = none →
        locatorFind (addOrder (reached ops) side none orderId quantity)._liveOrders orderId =
          none ∧
        orderId ∉ restingIds (addOrder (reached ops) side none orderId quantity) ∧
        ((addOrder (reached ops) side none orderId quantity).cancel orderId).1 =
          CancelResult.NOT_FOUND) ∧
    SimplePriceTimeBook.empty.addMarketSell 4 50 = SimplePriceTimeBook.empty ∧
    ((SimplePriceTimeBook.empty.addMarketSell 4 50).cancel 4).1 = CancelResult.NOT_FOUND := by
  refine ⟨fun b orderId quantity => ⟨rfl, rfl⟩, ?_, ?_,
    fun b side orderId quantity k hk => addOrder_market_resting b side orderId quantity k hk,
    ?_, ?_, by decide, by decide⟩
  · intro b side orderId quantity
    refine ⟨addOrder_market_own_side b side orderId quantity, ?_,
      addOrder_contra b side none orderId quantity, ?_⟩
    · rw [addOrder_market]
      cases side <;> rfl
    · rw [addOrder_market]
  · intro b side orderId quantity k loc hk
    rw [addOrder_market] at hk
    exact matchIncoming_no_new_entry b side none quantity k loc hk
  · intro b side orderId quantity _ hfresh hrest
    have hnone := addOrder_find_none b side none orderId quantity orderId hfresh (Or.inl rfl)
    exact ⟨hnone, fun hk => hrest (addOrder_market_resting b side orderId quantity orderId hk),
      (cancel_result _ orderId).2.1.2 hnone⟩
  · intro ops side orderId quantity hv _ hfresh
    have hwf : WellFormed (reached ops) := reachable_wellFormed ops hv
    have hwf2 := addOrder_wellFormed (reached ops) side none orderId quantity hwf hfresh
    have hnone := addOrder_find_none (reached ops) side none orderId quantity orderId hfresh
      (Or.inl rfl)
    exact ⟨hnone, (hwf2.2.fresh orderId).1 hnone, (cancel_result _ orderId).2.1.2 hnone⟩

/-- C11 (amended), for a market sell of 12 with the fresh id 4 against bids of
10 and 5, and for a market buy with the fresh id 7 on a book given directly. -/
theorem C11_market_orders_never_rest_witness :
    locatorFind (addOrder (reached [Op.addLimitBuy 1 100 10, Op.addLimitBuy 2 99 5])
        Side.ASK none 4 12)._liveOrders 4 = none ∧
    4 ∉ restingIds (addOrder (reached [Op.addLimitBuy 1 100 10, Op.addLimitBuy 2 99 5])
        Side.ASK none 4 12) ∧
    ((addOrder (reached [Op.addLimitBuy 1 100 10, Op.addLimitBuy 2 99 5])
        Side.ASK none 4 12).cancel 4).1 = CancelResult.NOT_FOUND ∧
    7 ∉ restingIds (addOrder
        { _bids := [], _asks := [(105, [⟨1, 3, 0⟩])], _liveOrders := [(1, ⟨Side.ASK, 105⟩)],
          _nextSequence := 1 } Side.BID none 7 2) :=
  ⟨(C11_market_orders_never_rest.2.2.2.2.2.1 [Op.addLimitBuy 1 100 10, Op.addLimitBuy 2 99 5]
      Side.ASK 4 12 (by decide) (by decide) (by decide)).1,
    (C11_market_orders_never_rest.2.2.2.2.2.1 [Op.addLimitBuy 1 100 10, Op.addLimitBuy 2 99 5]
      Side.ASK 4 12 (by decide) (by decide) (by decide)).2.1,
    (C11_market_orders_never_rest.2.2.2.2.2.1 [Op.addLimitBuy 1 100 10, Op.addLimitBuy 2 99 5]
      Side.ASK 4 12 (by decide) (by decide) (by decide)).2.2,
    (C11_market_orders_never_rest.2.2.2.2.1
      { _bids := [], _asks := [(105, [⟨1, 3, 0⟩])], _liveOrders := [(1, ⟨Side.ASK, 105⟩)],
        _nextSequence := 1 } Side.BID 7 2 (by decide) (by decide) (by decide)).2.1⟩

/-! ### Quantity conservation -/

theorem ladderQuantity_cons (p : Int) (queue : Queue) (l : Ladder) :
    ladderQuantity ((p, queue) :: l) = levelQuantity queue + ladderQuantity l := by
  simp [ladderQuantity]

theorem levelQuantity_cons (o : RestingOrder) (queue : Queue) :
    levelQuantity (o :: queue) = o._remaining + levelQuantity queue := by
  simp [levelQuantity]

theorem fillsQuantity_append_singleton (fills : List Fill) (f : Fill) :
    fillsQuantity (fills ++ [f]) = fillsQuantity fills + f.quantity := by
  simp [fillsQuantity]

theorem ladderQuantity_drop_empty (p : Int) (others : Queue) (levels : Ladder) :
    ladderQuantity (if others = [] then levels else (p, others) :: levels) =
      levelQuantity others + ladderQuantity levels := by
  by_cases ho : others = []
  · simp [ho, levelQuantity]
  · simp [ho, ladderQuantity_cons]

/-- What one iteration does to the front order `front` of the best contra level. -/
theorem matchStep_front (cross : Int → Bool) (s next : MatchState) (p : Int)
    (front : RestingOrder) (others : Queue) (levels : Ladder)
    (h : matchStep cross s = some next) (hc : s.contra = (p, front :: others) :: levels) :
    next.fills = s.fills ++ [⟨front._orderId, p, min s.remaining front._remaining⟩] ∧
    next.remaining + min s.remaining front._remaining = s.remaining ∧
    ladderQuantity next.contra + min s.remaining front._remaining = ladderQuantity s.contra ∧
    ((front._remaining = min s.remaining front._remaining ∧
        next.contra = (if others = [] then levels else (p, others) :: levels)) ∨
     (∃ left : Nat, 0 < left ∧ left + min s.remaining front._remaining = front._remaining ∧
        next.contra = (p, { front with _remaining := left } :: others) :: levels)) := by
  obtain ⟨-, p2, queue2, levels2, hc2, -, hcase⟩ := matchStep_cases cross s next h
  rw [hc] at hc2
  injection hc2 with hhead htail
  injection hhead with hp hq
  subst hp htail
  rw [hc]
  rcases hcase with ⟨hq2, -⟩ | ⟨f2, o2, hq2, hle, rfl⟩ | ⟨f2, o2, hq2, hlt, rfl⟩
  · rw [← hq] at hq2
    exact absurd hq2 (List.cons_ne_nil _ _)
  · rw [← hq] at hq2
    injection hq2 with hf ho
    subst hf ho
    have hmin : min s.remaining front._remaining = front._remaining := Nat.min_eq_right hle
    rw [hmin]
    refine ⟨rfl, by simp only; omega, ?_, Or.inl ⟨rfl, rfl⟩⟩
    simp only [ladderQuantity_drop_empty, ladderQuantity_cons, levelQuantity_cons]
    omega
  · rw [← hq] at hq2
    injection hq2 with hf ho
    subst hf ho
    have hmin : min s.remaining front._remaining = s.remaining :=
      Nat.min_eq_left (Nat.le_of_lt hlt)
    rw [hmin]
    refine ⟨rfl, by simp, ?_, Or.inr ⟨front._remaining - s.remaining, by omega, by omega, rfl⟩⟩
    simp only [ladderQuantity_cons, levelQuantity_cons]
    omega

theorem matchStep_conservation (cross : Int → Bool) (s next : MatchState)
    (h : matchStep cross s = some next) :
    fillsQuantity next.fills + next.remaining = fillsQuantity s.fills + s.remaining ∧
    ladderQuantity next.contra + fillsQuantity next.fills =
      ladderQuantity s.contra + fillsQuantity s.fills := by
  obtain ⟨-, p, queue, levels, hc, -, hcase⟩ := matchStep_cases cross s next h
  cases queue with
  | nil =>
    rcases hcase with ⟨-, rfl⟩ | ⟨f2, o2, hq2, -, -⟩ | ⟨f2, o2, hq2, -, -⟩
    · rw [hc]
      simp [ladderQuantity_cons, levelQuantity]
    · exact absurd hq2.symm (List.cons_ne_nil _ _)
    · exact absurd hq2.symm (List.cons_ne_nil _ _)
  | cons front others =>
    obtain ⟨hf, hr, hl, -⟩ := matchStep_front cross s next p front others levels h hc
    rw [hf, fillsQuantity_append_singleton]
    simp only
    omega

theorem matchIncoming_conservation (b : SimplePriceTimeBook) (side : Side)
    (limit : Option Int) (quantity : Nat) :
    fillsQuantity (matchIncoming b side limit quantity).fills +
        (matchIncoming b side limit quantity).remaining = quantity ∧
    ladderQuantity (matchIncoming b side limit quantity).contra +
        fillsQuantity (matchIncoming b side limit quantity).fills =
      ladderQuantity (b.ladder (opposite side)) := by
  unfold matchIncoming
  refine matchLoop_invariant (crosses side limit)
    (fun s => fillsQuantity s.fills + s.remaining = quantity ∧
      ladderQuantity s.contra + fillsQuantity s.fills = ladderQuantity (b.ladder (opposite side)))
    (fun s next hs hstep => ?_) _ _ ?_
  · obtain ⟨h1, h2⟩ := matchStep_conservation _ s next hstep
    exact ⟨h1.trans hs.1, h2.trans hs.2⟩
  · simp [fillsQuantity]

/-- C12: quantity conservation. In every match step against the front resting
order the traded quantity is `min(aggressor remaining, resting remaining)`,
the aggressor's remaining quantity drops by exactly that amount, and so does
the resting order's, which is removed when nothing is left of it. Over a
whole `add*` call the quantity taken off the contra side equals the traded
total, which is the submitted quantity minus the unfilled remainder. -/
theorem C12_quantity_conservation :
    (∀ (cross : Int → Bool) (s next : MatchState) (p : Int) (front : RestingOrder)
        (others : Queue) (levels : Ladder),
        matchStep cross s = some next → s.contra = (p, front :: others) :: levels →
        next.fills = s.fills ++ [⟨front._orderId, p, min s.remaining front._remaining⟩] ∧
        next.remaining + min s.remaining front._remaining = s.remaining ∧
        ladderQuantity next.contra + min s.remaining front._remaining =
          ladderQuantity s.contra ∧
        ((front._remaining = min s.remaining front._remaining ∧
            next.contra = (if others = [] then levels else (p, others) :: levels)) ∨
         (∃ left : Nat, 0 < left ∧
            left + min s.remaining front._remaining = front._remaining ∧
            next.contra = (p, { front with _remaining := left } :: others) :: levels))) ∧
    (∀ (b : SimplePriceTimeBook) (side : Side) (limit : Option Int) (orderId quantity : Nat),
        (matchIncoming b side limit quantity).remaining ≤ quantity ∧
        fillsQuantity (matchIncoming b side limit quantity).fills =
          quantity - (matchIncoming b side limit quantity).remaining ∧
        ladderQuantity (b.ladder (opposite side)) -
            ladderQuantity ((addOrder b side limit orderId quantity).ladder (opposite side)) =
          quantity - (matchIncoming b side limit quantity).remaining ∧
        ladderQuantity ((addOrder b side limit orderId quantity).ladder (opposite side)) ≤
          ladderQuantity (b.ladder (opposite side))) := by
  refine ⟨?_, ?_⟩
  · intro cross s next p front others levels h hc
    exact matchStep_front cross s next p front others levels h hc
  · intro b side limit orderId quantity
    obtain ⟨h1, h2⟩ := matchIncoming_conservation b side limit quantity
    rw [addOrder_contra]
    omega

/-- C12, for the step of a sell of 8 against a front bid of 5 at 101, and for
the whole call. -/
theorem C12_quantity_conservation_witness :
    ((∃ next : MatchState,
        matchStep (crosses Side.ASK (some 99))
            { remaining := 8, contra := [(101, [⟨2, 5, 1⟩]), (100, [⟨1, 10, 0⟩])],
              index := [], fills := [] } = some next ∧
          next.remaining + min 8 5 = 8 ∧
          ladderQuantity next.contra + min 8 5 =
            ladderQuantity [(101, [⟨2, 5, 1⟩]), (100, [⟨1, 10, 0⟩])])) ∧
    ladderQuantity ((reached [Op.addLimitBuy 1 100 10, Op.addLimitBuy 2 101 5]).ladder
          (opposite Side.ASK)) -
        ladderQuantity
          ((addOrder (reached [Op.addLimitBuy 1 100 10, Op.addLimitBuy 2 101 5])
            Side.ASK (some 99) 3 8).ladder (opposite Side.ASK)) =
      8 - (matchIncoming (reached [Op.addLimitBuy 1 100 10, Op.addLimitBuy 2 101 5])
            Side.ASK (some 99) 8).remaining :=
  ⟨⟨{ remaining := 3, contra := [(100, [⟨1, 10, 0⟩])], index := [],
        fills := [⟨2, 101, 5⟩] },
      by decide,
      (C12_quantity_conservation.1 (crosses Side.ASK (some 99))
        { remaining := 8, contra := [(101, [⟨2, 5, 1⟩]), (100, [⟨1, 10, 0⟩])],
          index := [], fills := [] }
        { remaining := 3, contra := [(100, [⟨1, 10, 0⟩])], index := [],
          fills := [⟨2, 101, 5⟩] }
        101 ⟨2, 5, 1⟩ [] [(100, [⟨1, 10, 0⟩])] (by decide) rfl).2.1,
      (C12_quantity_conservation.1 (crosses Side.ASK (some 99))
        { remaining := 8, contra := [(101, [⟨2, 5, 1⟩]), (100, [⟨1, 10, 0⟩])],
          index := [], fills := [] }
        { remaining := 3, contra := [(100, [⟨1, 10, 0⟩])], index := [],
          fills := [⟨2, 101, 5⟩] }
        101 ⟨2, 5, 1⟩ [] [(100, [⟨1, 10, 0⟩])] (by decide) rfl).2.2.1⟩,
    (C12_quantity_conservation.2 (reached [Op.addLimitBuy 1 100 10, Op.addLimitBuy 2 101 5])
      Side.ASK (some 99) 3 8).2.2.1⟩

/-! ### Depth and snapshot -/

theorem findLevel_none_of_absent (l : Ladder) (price : Int) (h : price ∉ prices l) :
    findLevel l price = none := by
  cases hf : findLevel l price with
  | none => rfl
  | some queue =>
    exact absurd (List.mem_map_of_mem (fun lv => lv.1) (findLevel_some_mem l price queue hf)) h

end order_book
